import Mathlib

/-!
A verification development for the laser_gates repository.

The repository's core is a declarative action scheduling engine driving
time-stepped behaviors on mutable targets (spec sections 2 to 7), plus the
game entry point `main` in src/game.pyw.  The engine definitions below are
modelled from the specification (the engine source is not part of the
checked-in sources; only its caller game.pyw is); `mainCalls` is embedded
from src/game.pyw.  Time deltas and target attributes are modelled as exact
integers so that all definitions are executable.
-/

/-- Modelled from the spec (section 3, Action.state): the five states of the
per-action state machine, PENDING, RUNNING, PAUSED, DONE, CANCELLED. -/
inductive AState where
  | pending
  | running
  | paused
  | done
  | cancelled
deriving DecidableEq, Repr

/-- Modelled from the spec (sections 4.1, 4.3, 7): the reason code passed to
`on_stop`: COMPLETED, CANCELLED, REPLACED (binding replacement, routed through
the CANCELLED path) and TARGET_GONE (dangling target self-cancel). -/
inductive StopReason where
  | completed
  | cancelled
  | replaced
  | targetGone
deriving DecidableEq, Repr

/-- Modelled from the spec (section 7): `InvalidStateError`, the only error the
engine raises (dangling targets self-cancel instead of raising). -/
inductive SchedErr where
  | invalidState
deriving DecidableEq, Repr

/-- Time is the frame-relative delta of spec section 4.1, modelled exactly. -/
abbrev Time := Int

/-- Modelled from the spec (section 3, Target): an external mutable object
with the declared numeric attribute subset. -/
structure Target where
  px : Time
  py : Time
  vx : Time
  vy : Time
  angle : Time
  angularVelocity : Time
  scale : Time
  opacity : Time
deriving DecidableEq, Repr

/-- Modelled from the spec (sections 3 and 4.1): the per-frame mutation
function and the completion condition `done(elapsed, target_state)` owned by
an atomic action. -/
structure Behavior where
  applyFrame : Target → Time → Target
  cond : Time → Target → Bool

/-- Modelled from the spec (sections 3 and 9): the bookkeeping every action
node carries: an identity, the state machine state, the elapsed accumulator,
and the single-shot `on_stop` machinery (an already-fired guard flag, the
number of actual `on_stop` invocations, and the reason it fired with). -/
structure Core where
  aid : Nat
  state : AState
  elapsed : Time
  onStopFired : Bool
  onStopCount : Nat
  stopReason : Option StopReason
deriving DecidableEq, Repr

/-- Modelled from the spec (sections 3 and 4.2): the closed set of action
kinds: atomic actions (target reference, behavior), Sequence (ordered child
list plus current index), Parallel (child list), Repeat (child, predicate
over the repeat count, completed-iteration count). -/
inductive CAction where
  | atom (core : Core) (beh : Behavior) (tgt : Option Target)
  | seqA (core : Core) (children : List CAction) (idx : Nat)
  | parA (core : Core) (children : List CAction)
  | repA (core : Core) (child : CAction) (pred : Nat → Bool) (count : Nat)

/-- The bookkeeping core of an action node. -/
def CAction.core : CAction → Core
  | .atom c _ _ => c
  | .seqA c _ _ => c
  | .parA c _ => c
  | .repA c _ _ _ => c

/-- The state-machine state of an action node. -/
def CAction.topState (a : CAction) : AState := a.core.state

/-- DONE and CANCELLED are the terminal states (spec section 4.4). -/
def AState.isTerminal : AState → Bool
  | .done => true
  | .cancelled => true
  | _ => false

/-- RUNNING and PAUSED are the live, advanceable states. -/
def AState.isActive : AState → Bool
  | .running => true
  | .paused => true
  | _ => false

/-- Modelled from the spec (section 4.1): `is_done()` is true iff the state is
DONE or CANCELLED. -/
def CAction.isDone (a : CAction) : Bool := a.topState.isTerminal

/-- Whether every child of a list is in a terminal state (the Parallel
completion rule of spec section 4.2). -/
def allTerminal : List CAction → Bool
  | [] => true
  | c :: cs => c.topState.isTerminal && allTerminal cs

/-- Modelled from the spec (sections 3 and 9): the terminal transition.  The
state becomes `s`; `on_stop` is invoked (the count is incremented and the
reason recorded) only if the already-fired guard flag is still clear, which
makes the callback at-most-once. -/
def Core.fireStop (c : Core) (r : StopReason) (s : AState) : Core :=
  if c.onStopFired then { c with state := s }
  else { c with state := s, onStopFired := true,
                onStopCount := c.onStopCount + 1, stopReason := some r }

/-- Replace the bookkeeping core of a node. -/
def CAction.withCore : CAction → Core → CAction
  | .atom _ b t, c => .atom c b t
  | .seqA _ cs i, c => .seqA c cs i
  | .parA _ cs, c => .parA c cs
  | .repA _ ch p n, c => .repA c ch p n

/-- Modelled from the spec (sections 4.2 and 9): restarting from PENDING for a
Repeat iteration resets the node (and all its descendants) to a pristine
state: PENDING, zero elapsed, fresh single-shot machinery, index and count
zero.  Targets and behaviors are kept (the target is external state). -/
def Core.reset (c : Core) : Core :=
  { c with state := .pending, elapsed := 0, onStopFired := false,
           onStopCount := 0, stopReason := none }

mutual

/-- Pristine restart of a whole action tree (see `Core.reset`). -/
def CAction.reset : CAction → CAction
  | .atom c b t => .atom c.reset b t
  | .seqA c cs _ => .seqA c.reset (resetAll cs) 0
  | .parA c cs => .parA c.reset (resetAll cs)
  | .repA c ch p _ => .repA c.reset ch.reset p 0

/-- Pristine restart of a list of children. -/
def resetAll : List CAction → List CAction
  | [] => []
  | c :: cs => c.reset :: resetAll cs

end

mutual

/-- Modelled from the spec (sections 4.1 and 4.2): `start()` transitions
PENDING to RUNNING and fails with `InvalidStateError` from any other state.
A Sequence starts its first child; a Parallel starts all children
simultaneously; a Repeat starts its child with the iteration count at zero.
An empty Sequence or Parallel has no child left to run and completes
immediately. -/
def CAction.start : CAction → Except SchedErr CAction
  | .atom c b t =>
      if c.state = .pending then .ok (.atom { c with state := .running } b t)
      else .error .invalidState
  | .seqA c cs i =>
      if c.state = .pending then
        match startAt cs 0 with
        | .ok (some cs') => .ok (.seqA { c with state := .running } cs' 0)
        | .ok none => .ok (.seqA (c.fireStop .completed .done) cs i)
        | .error e => .error e
      else .error .invalidState
  | .parA c cs =>
      if c.state = .pending then
        match startAll cs with
        | .ok [] => .ok (.parA (c.fireStop .completed .done) [])
        | .ok cs' => .ok (.parA { c with state := .running } cs')
        | .error e => .error e
      else .error .invalidState
  | .repA c ch p _ =>
      if c.state = .pending then
        match ch.start with
        | .ok ch' => .ok (.repA { c with state := .running } ch' p 0)
        | .error e => .error e
      else .error .invalidState

/-- Start the child at a given position of a child list; `none` when the
position is past the end of the list. -/
def startAt : List CAction → Nat → Except SchedErr (Option (List CAction))
  | [], _ => .ok none
  | c :: cs, 0 =>
      match c.start with
      | .ok c' => .ok (some (c' :: cs))
      | .error e => .error e
  | c :: cs, n + 1 =>
      match startAt cs n with
      | .ok (some cs') => .ok (some (c :: cs'))
      | .ok none => .ok none
      | .error e => .error e

/-- Start every child of a list. -/
def startAll : List CAction → Except SchedErr (List CAction)
  | [] => .ok []
  | c :: cs =>
      match c.start with
      | .ok c' =>
          match startAll cs with
          | .ok cs' => .ok (c' :: cs')
          | .error e => .error e
      | .error e => .error e

end

mutual

/-- Modelled from the spec (sections 4.1, 4.2 and 7): `stop()` forces a
transition to CANCELLED from RUNNING or PAUSED, invoking `on_stop` exactly
once, and is a no-op on any other state (idempotent cancellation).  Stopping
a composite first cancels every still-active child exactly once (the per-node
guard leaves terminal and pending children untouched). -/
def CAction.stop (r : StopReason) : CAction → CAction
  | .atom c b t =>
      if c.state.isActive then .atom (c.fireStop r .cancelled) b t
      else .atom c b t
  | .seqA c cs i =>
      if c.state.isActive then .seqA (c.fireStop r .cancelled) (stopAll cs) i
      else .seqA c cs i
  | .parA c cs =>
      if c.state.isActive then .parA (c.fireStop r .cancelled) (stopAll cs)
      else .parA c cs
  | .repA c ch p n =>
      if c.state.isActive then
        .repA (c.fireStop r .cancelled) (ch.stop .cancelled) p n
      else .repA c ch p n

/-- Cancel every still-active child of a list. -/
def stopAll : List CAction → List CAction
  | [] => []
  | c :: cs => c.stop .cancelled :: stopAll cs

end

/-- Modelled from the spec (section 4.1): `pause()` transitions RUNNING to
PAUSED and is an `InvalidStateError` from any other state. -/
def CAction.pause (a : CAction) : Except SchedErr CAction :=
  if a.core.state = .running then .ok (a.withCore { a.core with state := .paused })
  else .error .invalidState

/-- Modelled from the spec (section 4.1): `resume()` transitions PAUSED back
to RUNNING and is an `InvalidStateError` from any other state. -/
def CAction.resume (a : CAction) : Except SchedErr CAction :=
  if a.core.state = .paused then .ok (a.withCore { a.core with state := .running })
  else .error .invalidState

mutual

/-- Modelled from the spec (sections 4.1, 4.2 and 7): `update(dt)`.
On a PAUSED action it is a legal no-op that advances nothing; it is valid
only in RUNNING state otherwise (advancing a PENDING or terminal action is an
`InvalidStateError`).  A RUNNING atomic action whose target is gone
self-cancels with reason TARGET_GONE instead of mutating through the dangling
reference; otherwise it applies the per-frame mutation, advances `elapsed`,
then evaluates the condition on the new elapsed time and target state,
transitioning to DONE (reason COMPLETED) when it holds.  A Sequence advances
its current child; when that child reaches DONE it starts the next child (the
Sequence itself is DONE when no next child exists), and when the child is
CANCELLED the Sequence is CANCELLED, skipping the remaining children.  A
Parallel advances every still-active child and is DONE when all children are
terminal.  A Repeat advances its child; on child DONE the iteration count is
incremented and the predicate decides between a pristine restart of the child
and the Repeat transitioning to DONE; a CANCELLED child cancels the Repeat. -/
def CAction.update (dt : Time) : CAction → Except SchedErr CAction
  | .atom c b t =>
      match c.state with
      | .paused => .ok (.atom c b t)
      | .running =>
          match t with
          | none => .ok (.atom (c.fireStop .targetGone .cancelled) b none)
          | some tg =>
              let tg' := b.applyFrame tg dt
              let e' := c.elapsed + dt
              if b.cond e' tg' then
                .ok (.atom ({ c with elapsed := e' }.fireStop .completed .done) b (some tg'))
              else .ok (.atom { c with elapsed := e' } b (some tg'))
      | _ => .error .invalidState
  | .seqA c cs i =>
      match c.state with
      | .paused => .ok (.seqA c cs i)
      | .running =>
          match updAt dt cs i with
          | .error e => .error e
          | .ok (cs', st) =>
              let c1 : Core := { c with elapsed := c.elapsed + dt }
              match st with
              | .done =>
                  match startAt cs' (i + 1) with
                  | .ok (some cs'') => .ok (.seqA c1 cs'' (i + 1))
                  | .ok none => .ok (.seqA (c1.fireStop .completed .done) cs' i)
                  | .error e => .error e
              | .cancelled => .ok (.seqA (c1.fireStop .cancelled .cancelled) cs' i)
              | _ => .ok (.seqA c1 cs' i)
      | _ => .error .invalidState
  | .parA c cs =>
      match c.state with
      | .paused => .ok (.parA c cs)
      | .running =>
          match updAll dt cs with
          | .error e => .error e
          | .ok cs' =>
              let c1 : Core := { c with elapsed := c.elapsed + dt }
              if allTerminal cs' then
                .ok (.parA (c1.fireStop .completed .done) cs')
              else .ok (.parA c1 cs')
      | _ => .error .invalidState
  | .repA c ch p n =>
      match c.state with
      | .paused => .ok (.repA c ch p n)
      | .running =>
          match ch.update dt with
          | .error e => .error e
          | .ok ch' =>
              let c1 : Core := { c with elapsed := c.elapsed + dt }
              match ch'.topState with
              | .done =>
                  if p (n + 1) then
                    match ch'.reset.start with
                    | .ok ch'' => .ok (.repA c1 ch'' p (n + 1))
                    | .error e => .error e
                  else .ok (.repA (c1.fireStop .completed .done) ch' p (n + 1))
              | .cancelled => .ok (.repA (c1.fireStop .cancelled .cancelled) ch' p n)
              | _ => .ok (.repA c1 ch' p n)
      | _ => .error .invalidState

/-- Advance the child at a given position, returning the updated list and the
new state of that child; out-of-range positions are an error. -/
def updAt (dt : Time) : List CAction → Nat → Except SchedErr (List CAction × AState)
  | [], _ => .error .invalidState
  | c :: cs, 0 =>
      match c.update dt with
      | .ok c' => .ok (c' :: cs, c'.topState)
      | .error e => .error e
  | c :: cs, n + 1 =>
      match updAt dt cs n with
      | .ok (cs', st) => .ok (c :: cs', st)
      | .error e => .error e

/-- Advance every still-active child of a list; terminal children are left
untouched (one child finishing early does not stop its siblings). -/
def updAll (dt : Time) : List CAction → Except SchedErr (List CAction)
  | [] => .ok []
  | c :: cs =>
      match (if c.topState.isTerminal then .ok c else c.update dt) with
      | .ok c' =>
          match updAll dt cs with
          | .ok cs' => .ok (c' :: cs')
          | .error e => .error e
      | .error e => .error e

end

/-- One observable operation of the public action contract, applied at the
top level of an action (spec sections 4.1 and 4.2): a successful `start`,
`update`, `pause` or `resume`, or a `stop` with some reason. -/
inductive Step : CAction → CAction → Prop where
  | start (a b : CAction) : CAction.start a = Except.ok b → Step a b
  | update (a b : CAction) (dt : Time) : CAction.update dt a = Except.ok b → Step a b
  | pause (a b : CAction) : CAction.pause a = Except.ok b → Step a b
  | resume (a b : CAction) : CAction.resume a = Except.ok b → Step a b
  | stop (a : CAction) (r : StopReason) : Step a (CAction.stop r a)

/-- Reachability under any sequence of contract operations. -/
def Reach : CAction → CAction → Prop := Relation.ReflTransGen Step

/-- The target held by an atomic action node (composites resolve targets
per child, spec section 3). -/
def CAction.targetOf : CAction → Option Target
  | .atom _ _ t => t
  | _ => none

/-- Evaluation driver: the value of a successful operation, or a fallback. -/
def okOr (d : CAction) : Except SchedErr CAction → CAction
  | .ok a => a
  | .error _ => d

/-- Evaluation driver: tick an action `n` frames with `update dt`
(an erroring update leaves the action unchanged). -/
def runN (dt : Time) (a : CAction) : Nat → CAction
  | 0 => a
  | n + 1 => okOr (runN dt a n) ((runN dt a n).update dt)

/-- Embedded from src/game.pyw: the externally observable calls `main` can
make, in order: configuring file logging, writing a log record, toggling the
action debug hook, and running the game. -/
inductive GCall where
  | setupLogging
  | logInfo (msg : String)
  | setDebugActions (b : Bool)
  | runGame
deriving DecidableEq, Repr

/-- Embedded from src/game.pyw, `main` (lines 50 to 86): after parsing the
`--debug` and `--debug-actions` flags, `main` configures logging and logs a
record only under `--debug`, calls `set_debug_actions(True)` only under
`--debug-actions` (and never calls it with `False`), then runs the game. -/
def mainCalls (debug debugActions : Bool) : List GCall :=
  (if debug then
    [GCall.setupLogging, GCall.logInfo "Starting game with debug logging enabled"]
   else []) ++
  (if debugActions then [GCall.setDebugActions true] else []) ++
  (if debug then [GCall.logInfo "Starting game"] else []) ++
  [GCall.runGame]

/-- A pristine action core with a given identity. -/
def freshCore (aid : Nat) : Core :=
  { aid := aid, state := .pending, elapsed := 0, onStopFired := false,
    onStopCount := 0, stopReason := none }

/-- The all-zero target of the end-to-end scenario of spec section 8. -/
def zeroTarget : Target :=
  { px := 0, py := 0, vx := 0, vy := 0, angle := 0, angularVelocity := 0,
    scale := 0, opacity := 0 }

/-- The behavior of the end-to-end scenario of spec section 8: set velocity
to (2, 0), integrate position by velocity times dt each frame, complete when
position.x reaches 10. -/
def moveBehavior : Behavior :=
  { applyFrame := fun t dt =>
      let t1 : Target := { t with vx := 2, vy := 0 }
      { t1 with px := t1.px + t1.vx * dt, py := t1.py + t1.vy * dt },
    cond := fun _ t => 10 ≤ t.px }

/-- The atomic action of the end-to-end scenario of spec section 8. -/
def moveAction : CAction := .atom (freshCore 0) moveBehavior (some zeroTarget)

theorem core_withCore (a : CAction) (c : Core) : (a.withCore c).core = c := by
  cases a <;> rfl

theorem fireStop_state (c : Core) (r : StopReason) (s : AState) :
    (c.fireStop r s).state = s := by
  unfold Core.fireStop; split <;> rfl

theorem stop_of_not_active (a : CAction) (r : StopReason)
    (h : a.core.state.isActive = false) : a.stop r = a := by
  cases a <;> simp [CAction.stop, CAction.core] at * <;> simp [h]

theorem stop_core_of_active (a : CAction) (r : StopReason)
    (h : a.core.state.isActive = true) :
    (a.stop r).core = a.core.fireStop r .cancelled := by
  cases a <;> simp [CAction.stop, CAction.core] at * <;> simp [h, CAction.core]

theorem start_core_cases (a b : CAction) (h : a.start = .ok b) :
    a.core.state = .pending ∧
    (b.core = { a.core with state := .running } ∨
     b.core = a.core.fireStop .completed .done) := by
  cases a with
  | atom c bb t =>
      by_cases hp : c.state = .pending
      · simp [CAction.start, hp] at h
        subst h
        simp [CAction.core, hp]
      · simp [CAction.start, hp] at h
  | seqA c cs i =>
      by_cases hp : c.state = .pending
      · simp [CAction.start, hp] at h
        match hs : startAt cs 0 with
        | .ok (some cs') => rw [hs] at h; simp at h; subst h; simp [CAction.core, hp]
        | .ok none => rw [hs] at h; simp at h; subst h; simp [CAction.core, hp]
        | .error e => rw [hs] at h; simp at h
      · simp [CAction.start, hp] at h
  | parA c cs =>
      by_cases hp : c.state = .pending
      · simp [CAction.start, hp] at h
        match hs : startAll cs with
        | .ok [] => rw [hs] at h; simp at h; subst h; simp [CAction.core, hp]
        | .ok (x :: xs) => rw [hs] at h; simp at h; subst h; simp [CAction.core, hp]
        | .error e => rw [hs] at h; simp at h
      · simp [CAction.start, hp] at h
  | repA c ch p n =>
      by_cases hp : c.state = .pending
      · simp [CAction.start, hp] at h
        match hs : ch.start with
        | .ok ch' => rw [hs] at h; simp at h; subst h; simp [CAction.core, hp]
        | .error e => rw [hs] at h; simp at h
      · simp [CAction.start, hp] at h

theorem update_core_cases (dt : Time) (a b : CAction)
    (h : CAction.update dt a = .ok b) :
    (a.core.state = .paused ∧ b = a) ∨
    (a.core.state = .running ∧
      (b.core = { a.core with elapsed := a.core.elapsed + dt } ∨
       b.core = a.core.fireStop .targetGone .cancelled ∨
       (∃ r s, s.isTerminal = true ∧
         b.core = ({ a.core with elapsed := a.core.elapsed + dt }).fireStop r s))) := by
  cases a with
  | atom c bb t =>
      obtain ⟨aid, st, el, fd, n, sr⟩ := c
      cases st <;> simp [CAction.update] at h
      case paused => subst h; simp [CAction.core]
      case running =>
          match t with
          | none =>
              simp at h; subst h; right
              exact ⟨rfl, .inr (.inl (by simp [CAction.core]))⟩
          | some tg =>
              simp at h
              by_cases hcd : bb.cond (el + dt) (bb.applyFrame tg dt) = true
              · simp [hcd] at h; subst h; right
                exact ⟨rfl, .inr (.inr ⟨.completed, .done, rfl, by simp [CAction.core]⟩)⟩
              · simp [hcd] at h; subst h; right
                exact ⟨rfl, .inl (by simp [CAction.core])⟩
  | seqA c cs i =>
      obtain ⟨aid, st, el, fd, n, sr⟩ := c
      cases st <;> simp [CAction.update] at h
      case paused => subst h; simp [CAction.core]
      case running =>
          match hu : updAt dt cs i with
          | .error e => rw [hu] at h; simp at h
          | .ok (cs', stc) =>
              rw [hu] at h; simp at h
              match stc with
              | .done =>
                  simp at h
                  match hs : startAt cs' (i + 1) with
                  | .ok (some cs'') =>
                      rw [hs] at h; simp at h; subst h; right
                      exact ⟨rfl, .inl (by simp [CAction.core])⟩
                  | .ok none =>
                      rw [hs] at h; simp at h; subst h; right
                      exact ⟨rfl, .inr (.inr ⟨.completed, .done, rfl, by simp [CAction.core]⟩)⟩
                  | .error e => rw [hs] at h; simp at h
              | .cancelled =>
                  simp at h; subst h; right
                  exact ⟨rfl, .inr (.inr ⟨.cancelled, .cancelled, rfl, by simp [CAction.core]⟩)⟩
              | .pending => simp at h; subst h; right; exact ⟨rfl, .inl (by simp [CAction.core])⟩
              | .running => simp at h; subst h; right; exact ⟨rfl, .inl (by simp [CAction.core])⟩
              | .paused => simp at h; subst h; right; exact ⟨rfl, .inl (by simp [CAction.core])⟩
  | parA c cs =>
      obtain ⟨aid, st, el, fd, n, sr⟩ := c
      cases st <;> simp [CAction.update] at h
      case paused => subst h; simp [CAction.core]
      case running =>
          match hu : updAll dt cs with
          | .error e => rw [hu] at h; simp at h
          | .ok cs' =>
              rw [hu] at h
              by_cases ht : allTerminal cs' = true
              · simp [ht] at h; subst h; right
                exact ⟨rfl, .inr (.inr ⟨.completed, .done, rfl, by simp [CAction.core]⟩)⟩
              · simp [ht] at h; subst h; right
                exact ⟨rfl, .inl (by simp [CAction.core])⟩
  | repA c ch p nn =>
      obtain ⟨aid, st, el, fd, n, sr⟩ := c
      cases st <;> simp [CAction.update] at h
      case paused => subst h; simp [CAction.core]
      case running =>
          match hu : ch.update dt with
          | .error e => rw [hu] at h; simp at h
          | .ok ch' =>
              rw [hu] at h; simp at h
              cases hts : ch'.topState
              all_goals rw [hts] at h
              case done =>
                  by_cases hp : p (nn + 1) = true
                  · simp [hp] at h
                    match hr : ch'.reset.start with
                    | .ok ch'' =>
                        rw [hr] at h; simp at h; subst h; right
                        exact ⟨rfl, .inl (by simp [CAction.core])⟩
                    | .error e => rw [hr] at h; simp at h
                  · simp [hp] at h; subst h; right
                    exact ⟨rfl, .inr (.inr ⟨.completed, .done, rfl, by simp [CAction.core]⟩)⟩
              case cancelled =>
                  simp at h; subst h; right
                  exact ⟨rfl, .inr (.inr ⟨.cancelled, .cancelled, rfl, by simp [CAction.core]⟩)⟩
              case pending => simp at h; subst h; right; exact ⟨rfl, .inl (by simp [CAction.core])⟩
              case running => simp at h; subst h; right; exact ⟨rfl, .inl (by simp [CAction.core])⟩
              case paused => simp at h; subst h; right; exact ⟨rfl, .inl (by simp [CAction.core])⟩

theorem start_err_of_not_pending (a : CAction)
    (h : a.core.state ≠ .pending) : a.start = .error .invalidState := by
  cases a <;> simp [CAction.start, CAction.core] at * <;> simp [h]

theorem update_err_of_terminal (dt : Time) (a : CAction)
    (h : a.core.state.isTerminal = true) :
    CAction.update dt a = .error .invalidState := by
  cases a with
  | atom c bb t =>
      obtain ⟨aid, st, el, fd, n, sr⟩ := c
      cases st <;> simp [CAction.core, AState.isTerminal] at h <;>
        simp [CAction.update]
  | seqA c cs i =>
      obtain ⟨aid, st, el, fd, n, sr⟩ := c
      cases st <;> simp [CAction.core, AState.isTerminal] at h <;>
        simp [CAction.update]
  | parA c cs =>
      obtain ⟨aid, st, el, fd, n, sr⟩ := c
      cases st <;> simp [CAction.core, AState.isTerminal] at h <;>
        simp [CAction.update]
  | repA c ch p n =>
      obtain ⟨aid, st, el, fd, nn, sr⟩ := c
      cases st <;> simp [CAction.core, AState.isTerminal] at h <;>
        simp [CAction.update]

theorem pause_cases (a b : CAction) (h : a.pause = .ok b) :
    a.core.state = .running ∧ b = a.withCore { a.core with state := .paused } := by
  unfold CAction.pause at h
  by_cases hr : a.core.state = .running
  · simp [hr] at h; exact ⟨hr, h.symm⟩
  · simp [hr] at h

theorem resume_cases (a b : CAction) (h : a.resume = .ok b) :
    a.core.state = .paused ∧ b = a.withCore { a.core with state := .running } := by
  unfold CAction.resume at h
  by_cases hr : a.core.state = .paused
  · simp [hr] at h; exact ⟨hr, h.symm⟩
  · simp [hr] at h

theorem pause_err_of_not_running (a : CAction) (h : a.core.state ≠ .running) :
    a.pause = .error .invalidState := by
  unfold CAction.pause; simp [h]

theorem resume_err_of_not_paused (a : CAction) (h : a.core.state ≠ .paused) :
    a.resume = .error .invalidState := by
  unfold CAction.resume; simp [h]

theorem terminal_not_pending (s : AState) (h : s.isTerminal = true) :
    s ≠ .pending := by
  cases s <;> simp_all [AState.isTerminal]

theorem terminal_not_active (s : AState) (h : s.isTerminal = true) :
    s.isActive = false := by
  cases s <;> simp_all [AState.isTerminal, AState.isActive]

/-- Whether an engine call failed with `InvalidStateError`. -/
def isInvalid : Except SchedErr CAction → Bool
  | .error .invalidState => true
  | _ => false

/-- The end-to-end scenario action, started. -/
def startedMove : CAction := okOr moveAction moveAction.start

/-- A fixture: an atomic action already in the terminal DONE state. -/
def doneAtom : CAction := .atom { freshCore 3 with state := .done } moveBehavior none

/-- A fixture: a RUNNING atomic action whose target reference is gone. -/
def goneAtom : CAction := .atom { freshCore 4 with state := .running } moveBehavior none

/-- C4: `start()` from any state other than PENDING fails with
`InvalidStateError`; `update()` on a terminal (DONE or CANCELLED) action is an
`InvalidStateError`, not a silent no-op; and DONE/CANCELLED are absorbing: no
operation moves a terminal action anywhere (`stop` is an explicit no-op and
every other operation is rejected). -/
theorem startUpdateStateErrors (a : CAction) (dt : Time) (r : StopReason) :
    (a.topState ≠ .pending → a.start = .error .invalidState) ∧
    (a.topState.isTerminal = true →
      CAction.update dt a = .error .invalidState ∧
      a.stop r = a ∧
      a.pause = .error .invalidState ∧
      a.resume = .error .invalidState ∧
      a.start = .error .invalidState) := by
  constructor
  · exact fun h => start_err_of_not_pending a h
  · intro ht
    refine ⟨update_err_of_terminal dt a ht,
            stop_of_not_active a r (terminal_not_active _ ht), ?_, ?_,
            start_err_of_not_pending a (terminal_not_pending _ ht)⟩
    · exact pause_err_of_not_running a (by
        cases hs : a.core.state <;> simp_all [AState.isTerminal, CAction.topState])
    · exact resume_err_of_not_paused a (by
        cases hs : a.core.state <;> simp_all [AState.isTerminal, CAction.topState])

/-- Witness for C4 at a concrete DONE action. -/
theorem startUpdateStateErrors_witness :
    CAction.update 1 doneAtom = .error .invalidState ∧
    doneAtom.stop .cancelled = doneAtom ∧
    doneAtom.start = .error .invalidState :=
  let h := startUpdateStateErrors doneAtom 1 .cancelled
  let h2 := h.2 (by decide)
  ⟨h2.1, h2.2.1, h2.2.2.2.2⟩

/-- C9: an `update(dt)` on a RUNNING action whose target reference is gone
raises no error out to the frame loop and mutates nothing (the target stays
absent); the action transitions to CANCELLED immediately, with stop reason
TARGET_GONE recorded for the `on_stop` callback (one invocation). -/
theorem danglingTargetSelfCancel (c : Core) (b : Behavior) (dt : Time)
    (h : c.state = .running) :
    CAction.update dt (.atom c b none) =
      .ok (.atom (c.fireStop .targetGone .cancelled) b none) ∧
    (c.fireStop .targetGone .cancelled).state = .cancelled ∧
    (c.onStopFired = false →
      (c.fireStop .targetGone .cancelled).stopReason = some .targetGone ∧
      (c.fireStop .targetGone .cancelled).onStopCount = c.onStopCount + 1) := by
  obtain ⟨aid, st, el, fd, n, sr⟩ := c
  simp only at h
  subst h
  refine ⟨by simp [CAction.update], fireStop_state _ _ _, ?_⟩
  intro hf
  simp only at hf
  subst hf
  simp [Core.fireStop]

/-- Witness for C9 at a concrete dangling-target action. -/
theorem danglingTargetSelfCancel_witness :
    CAction.update 1 goneAtom =
      .ok (.atom (({ freshCore 4 with state := .running}).fireStop .targetGone .cancelled)
            moveBehavior none) ∧
    (({ freshCore 4 with state := .running} : Core).fireStop .targetGone .cancelled).stopReason =
      some .targetGone :=
  let h := danglingTargetSelfCancel { freshCore 4 with state := .running} moveBehavior 1 rfl
  ⟨h.1, (h.2.2 rfl).1⟩

/-- C8: the end-to-end scenario: a target at position (0,0) with velocity
(0,0), an action that sets velocity to (2,0) with condition position.x >= 10,
ticked with dt=1: after 5 frames the position is (10,0) and the action is DONE
on the 5th tick and RUNNING on every earlier tick; in general each `update`
applies the per-frame mutation and advances `elapsed` before evaluating the
condition on the new values. -/
theorem endToEndMoveScenario :
    ((runN 1 startedMove 5).topState = .done ∧
     (runN 1 startedMove 5).targetOf =
       some { zeroTarget with px := 10, py := 0, vx := 2, vy := 0 } ∧
     (runN 1 startedMove 5).core.elapsed = 5 ∧
     (∀ k, k ≤ 4 → (runN 1 startedMove k).topState = .running)) ∧
    (∀ (c : Core) (b : Behavior) (tg : Target) (dt : Time), c.state = .running →
      ∃ a', CAction.update dt (.atom c b (some tg)) = .ok a' ∧
        a'.core.elapsed = c.elapsed + dt ∧
        a'.targetOf = some (b.applyFrame tg dt) ∧
        (a'.topState = .done ↔ b.cond (c.elapsed + dt) (b.applyFrame tg dt) = true) ∧
        (a'.topState = .running ↔ b.cond (c.elapsed + dt) (b.applyFrame tg dt) = false)) := by
  constructor
  · refine ⟨by decide, by decide, by decide, ?_⟩
    decide
  · intro c b tg dt h
    obtain ⟨aid, st, el, fd, n, sr⟩ := c
    simp only at h
    subst h
    by_cases hcd : b.cond (el + dt) (b.applyFrame tg dt) = true
    · refine ⟨.atom ((⟨aid, .running, el + dt, fd, n, sr⟩ : Core).fireStop .completed .done) b (some (b.applyFrame tg dt)), ?_, ?_, ?_, ?_, ?_⟩
      · simp [CAction.update, hcd]
      all_goals
        simp [CAction.core, CAction.targetOf, CAction.topState, Core.fireStop, hcd] <;>
          split <;> simp
    · refine ⟨.atom (⟨aid, .running, el + dt, fd, n, sr⟩ : Core) b (some (b.applyFrame tg dt)), ?_, ?_, ?_, ?_, ?_⟩
      · simp [CAction.update, hcd]
      all_goals
        simp [CAction.core, CAction.targetOf, CAction.topState, hcd]

/-- Witness for C8's general clause at a concrete running action. -/
theorem endToEndMoveScenario_witness :
    ∃ a', CAction.update 1 (.atom { freshCore 0 with state := .running }
            moveBehavior (some zeroTarget)) = .ok a' ∧
      a'.core.elapsed = 1 ∧
      a'.targetOf = some { zeroTarget with px := 2, vx := 2 } :=
  let h := endToEndMoveScenario.2 { freshCore 0 with state := .running }
    moveBehavior zeroTarget 1 rfl
  ⟨h.choose, h.choose_spec.1, h.choose_spec.2.1, h.choose_spec.2.2.1⟩

/-- C10: in `main` of src/game.pyw, `set_debug_actions(True)` is called iff the
`--debug-actions` flag is present, and `set_debug_actions` is never called with
`False`, so the flag only ever enables debug-action output. -/
theorem debugActionsFlagOnlyEnables (debug debugActions : Bool) :
    (GCall.setDebugActions true ∈ mainCalls debug debugActions ↔ debugActions = true) ∧
    (∀ b, GCall.setDebugActions b ∈ mainCalls debug debugActions → b = true) := by
  cases debug <;> cases debugActions <;> refine ⟨?_, ?_⟩ <;> decide

/-- Witness for C10: with only `--debug-actions` passed the call is made, and
with no flags it is not. -/
theorem debugActionsFlagOnlyEnables_witness :
    GCall.setDebugActions true ∈ mainCalls false true ∧
    GCall.setDebugActions true ∉ mainCalls false false :=
  ⟨(debugActionsFlagOnlyEnables false true).1.mpr rfl,
   fun h => Bool.false_ne_true ((debugActionsFlagOnlyEnables false false).1.mp h)⟩

/-- The operation chain of spec section 8's pause property:
start; update dt1; pause; update dt2; resume; update dt3. -/
def pausedChain (a : CAction) (dt1 dt2 dt3 : Time) : Except SchedErr CAction := do
  let a1 ← a.start
  let a2 ← a1.update dt1
  let a3 ← a2.pause
  let a4 ← a3.update dt2
  let a5 ← a4.resume
  a5.update dt3

/-- The reference chain of spec section 8's pause property:
start; update dt1; update dt3. -/
def plainChain (a : CAction) (dt1 dt3 : Time) : Except SchedErr CAction := do
  let a1 ← a.start
  let a2 ← a1.update dt1
  a2.update dt3

/-- C3: pausing preserves elapsed time exactly: for an atomic action that is
still RUNNING after the first update, `start; update dt1; pause; update dt2;
resume; update dt3` produces the very same result (in particular the same
`elapsed`) as `start; update dt1; update dt3`; an update on a PAUSED action is
a no-op that advances nothing, so dt2 is fully discarded, and the surviving
elapsed accumulation is exactly dt1 + dt3. -/
theorem pauseDiscardsPausedTime (c : Core) (b : Behavior) (tg : Target)
    (dt1 dt2 dt3 : Time) (hp : c.state = .pending)
    (hc1 : b.cond (c.elapsed + dt1) (b.applyFrame tg dt1) = false) :
    pausedChain (.atom c b (some tg)) dt1 dt2 dt3 =
      plainChain (.atom c b (some tg)) dt1 dt3 ∧
    (∀ a' : CAction, a'.topState = .paused → CAction.update dt2 a' = .ok a') ∧
    (∃ res, plainChain (.atom c b (some tg)) dt1 dt3 = .ok res ∧
      res.core.elapsed = c.elapsed + dt1 + dt3) := by
  obtain ⟨aid, st, el, fd, n, sr⟩ := c
  simp only at hp hc1
  subst hp
  refine ⟨?_, ?_, ?_⟩
  · simp [pausedChain, plainChain, bind, Except.bind, CAction.start, CAction.update,
          CAction.pause, CAction.resume, CAction.withCore, CAction.core, hc1]
  · intro a' hps
    cases a' with
    | atom c2 b2 t2 =>
        obtain ⟨aid2, st2, el2, fd2, n2, sr2⟩ := c2
        simp [CAction.topState, CAction.core] at hps
        subst hps; simp [CAction.update]
    | seqA c2 cs2 i2 =>
        obtain ⟨aid2, st2, el2, fd2, n2, sr2⟩ := c2
        simp [CAction.topState, CAction.core] at hps
        subst hps; simp [CAction.update]
    | parA c2 cs2 =>
        obtain ⟨aid2, st2, el2, fd2, n2, sr2⟩ := c2
        simp [CAction.topState, CAction.core] at hps
        subst hps; simp [CAction.update]
    | repA c2 ch2 p2 n2 =>
        obtain ⟨aid2, st2, el2, fd2, nn2, sr2⟩ := c2
        simp [CAction.topState, CAction.core] at hps
        subst hps; simp [CAction.update]
  · simp [plainChain, bind, Except.bind, CAction.start, CAction.update, hc1]
    by_cases hc3 : b.cond (el + dt1 + dt3) (b.applyFrame (b.applyFrame tg dt1) dt3) = true
    · simp [hc3, CAction.core, Core.fireStop]
      split <;> simp
    · simp [hc3, CAction.core]

/-- Witness for C3 at the concrete move action with dt1=1, dt2=7, dt3=2. -/
theorem pauseDiscardsPausedTime_witness :
    pausedChain (.atom (freshCore 1) moveBehavior (some zeroTarget)) 1 7 2 =
      plainChain (.atom (freshCore 1) moveBehavior (some zeroTarget)) 1 2 :=
  (pauseDiscardsPausedTime (freshCore 1) moveBehavior zeroTarget 1 7 2
    rfl (by decide)).1

/-- The at-most-once discipline of the `on_stop` machinery (spec section 3's
invariant together with section 9's guard-flag design): either the callback
has not fired (zero invocations) or it has fired exactly once and the action
has already left RUNNING/PAUSED for a terminal state. -/
def CoreOk (c : Core) : Prop :=
  (c.onStopFired = false ∧ c.onStopCount = 0) ∨
  (c.onStopFired = true ∧ c.onStopCount = 1 ∧ c.state.isTerminal = true)

theorem fireStop_coreOk (c : Core) (r : StopReason) (s : AState)
    (hs : s.isTerminal = true) (hk : CoreOk c) :
    CoreOk (c.fireStop r s) := by
  rcases hk with ⟨hf, hn⟩ | ⟨hf, hn, ht⟩ <;>
    simp [Core.fireStop, hf] <;> right <;> simp_all

theorem step_coreOk (a b : CAction) (h : Step a b) (hk : CoreOk a.core) :
    CoreOk b.core := by
  cases h with
  | start b hs =>
      obtain ⟨hp, hcore⟩ := start_core_cases a b hs
      rcases hcore with h1 | h2
      · rw [h1]
        rcases hk with ⟨hf, hn⟩ | ⟨hf, hn, ht⟩
        · left; exact ⟨hf, hn⟩
        · rw [hp] at ht; simp [AState.isTerminal] at ht
      · rw [h2]; exact fireStop_coreOk _ _ _ (by simp [AState.isTerminal]) hk
  | update b dt hu =>
      rcases update_core_cases dt a b hu with ⟨_, hb⟩ | ⟨hr, hb⟩
      · rw [hb]; exact hk
      · rcases hb with h1 | h2 | ⟨r, s, hst, h3⟩
        · rw [h1]
          rcases hk with ⟨hf, hn⟩ | ⟨hf, hn, ht⟩
          · left; exact ⟨hf, hn⟩
          · rw [hr] at ht; simp [AState.isTerminal] at ht
        · rw [h2]; exact fireStop_coreOk _ _ _ (by simp [AState.isTerminal]) hk
        · rw [h3]
          refine fireStop_coreOk _ _ _ hst ?_
          rcases hk with ⟨hf, hn⟩ | ⟨hf, hn, ht⟩
          · left; exact ⟨hf, hn⟩
          · rw [hr] at ht; simp [AState.isTerminal] at ht
  | pause b hp =>
      obtain ⟨hr, hb⟩ := pause_cases a b hp
      rw [hb, core_withCore]
      rcases hk with ⟨hf, hn⟩ | ⟨hf, hn, ht⟩
      · left; exact ⟨hf, hn⟩
      · rw [hr] at ht; simp [AState.isTerminal] at ht
  | resume b hp =>
      obtain ⟨hr, hb⟩ := resume_cases a b hp
      rw [hb, core_withCore]
      rcases hk with ⟨hf, hn⟩ | ⟨hf, hn, ht⟩
      · left; exact ⟨hf, hn⟩
      · rw [hr] at ht; simp [AState.isTerminal] at ht
  | stop r =>
      by_cases ha : a.core.state.isActive = true
      · rw [stop_core_of_active a r ha]
        exact fireStop_coreOk _ _ _ (by simp [AState.isTerminal]) hk
      · rw [stop_of_not_active a r (by simpa using ha)]; exact hk

theorem reach_coreOk (a b : CAction) (h : Reach a b) (hk : CoreOk a.core) :
    CoreOk b.core := by
  induction h with
  | refl => exact hk
  | tail hr hstep ih => exact step_coreOk _ _ hstep ih

theorem stop_iter_of_terminal (b : CAction) (r : StopReason) (n : Nat)
    (ht : b.core.state.isTerminal = true) : (CAction.stop r)^[n] b = b := by
  induction n with
  | zero => rfl
  | succ n ih =>
      rw [Function.iterate_succ_apply, stop_of_not_active b r (terminal_not_active _ ht)]
      exact ih

/-- C2: idempotent stop: from RUNNING or PAUSED, any number N >= 1 of `stop()`
calls yields exactly one `on_stop` invocation, final state CANCELLED, and the
given stop reason recorded; `stop()` on a terminal action is a no-op; and over
the whole lifetime of an action (any reachable sequence of operations) the
`on_stop` callback fires at most once, and only once the action has left
RUNNING/PAUSED for a terminal state. -/
theorem idempotentStop (a : CAction) (n : Nat) (r : StopReason)
    (ha : a.core.state.isActive = true)
    (hf : a.core.onStopFired = false) (hn : a.core.onStopCount = 0) :
    ((CAction.stop r)^[n + 1] a).core.state = .cancelled ∧
    ((CAction.stop r)^[n + 1] a).core.onStopCount = 1 ∧
    ((CAction.stop r)^[n + 1] a).core.stopReason = some r ∧
    (∀ b : CAction, b.core.state.isTerminal = true → ∀ q, b.stop q = b) ∧
    (∀ b : CAction, Reach a b →
      b.core.onStopCount ≤ 1 ∧
      (b.core.onStopCount = 1 → b.core.state.isTerminal = true)) := by
  have h1 : (a.stop r).core = a.core.fireStop r .cancelled := stop_core_of_active a r ha
  have hterm : (a.stop r).core.state.isTerminal = true := by
    rw [h1, fireStop_state]; simp [AState.isTerminal]
  have hiter : (CAction.stop r)^[n + 1] a = a.stop r := by
    rw [Function.iterate_succ_apply]
    exact stop_iter_of_terminal _ r n hterm
  rw [hiter, h1]
  refine ⟨by rw [fireStop_state], ?_, ?_, ?_, ?_⟩
  · simp [Core.fireStop, hf, hn]
  · simp [Core.fireStop, hf]
  · exact fun b ht q => stop_of_not_active b q (terminal_not_active _ ht)
  · intro b hr
    have hk : CoreOk b.core := reach_coreOk a b hr (.inl ⟨hf, hn⟩)
    rcases hk with ⟨_, hz⟩ | ⟨_, ho, ht⟩
    · simp [hz]
    · simp [ho, ht]

/-- A fixture: a RUNNING atomic action with a live target. -/
def runningAtom : CAction :=
  .atom { freshCore 5 with state := .running } moveBehavior (some zeroTarget)

/-- Witness for C2: three consecutive stops on a concrete RUNNING action give
state CANCELLED with exactly one on_stop invocation, reason CANCELLED. -/
theorem idempotentStop_witness :
    ((CAction.stop .cancelled)^[3] runningAtom).core.state = .cancelled ∧
    ((CAction.stop .cancelled)^[3] runningAtom).core.onStopCount = 1 ∧
    ((CAction.stop .cancelled)^[3] runningAtom).core.stopReason =
      some .cancelled :=
  let h := idempotentStop runningAtom 2 .cancelled (by decide) rfl rfl
  ⟨h.1, h.2.1, h.2.2.1⟩

/-- The completed-iteration count of a Repeat node. -/
def CAction.repCount : CAction → Nat
  | .repA _ _ _ n => n
  | _ => 0

/-- A behavior that mutates nothing and completes after one frame of elapsed
time. -/
def quickBehavior : Behavior :=
  { applyFrame := fun t _ => t, cond := fun e _ => decide (1 ≤ e) }

/-- A fixture: an atomic action completing on its first update. -/
def quickAtom : CAction := .atom (freshCore 7) quickBehavior (some zeroTarget)

/-- The predicate of spec section 8's Repeat boundary property. -/
def lessThan3 : Nat → Bool := fun k => decide (k < 3)

/-- A fixture: Repeat(quickAtom, count < 3). -/
def rep3 : CAction := .repA (freshCore 6) quickAtom lessThan3 0

/-- The Repeat fixture, started. -/
def startedRep : CAction := okOr rep3 rep3.start

/-- The quick atom, started. -/
def startedQuick : CAction := okOr quickAtom quickAtom.start

/-- The started quick atom after the update that completes it. -/
def quickDone : CAction := okOr startedQuick (startedQuick.update 1)

/-- C7: Repeat semantics: the predicate is evaluated only between iterations
(a mid-iteration update leaves the count untouched and behaves identically
under any predicate); each time the child reaches DONE with the predicate
still true the child is restarted from a pristine PENDING state; the Repeat
transitions to DONE the first time the predicate is false; and concretely
Repeat(child, count < 3) runs the child exactly 3 times (iteration count 3),
is DONE immediately after the 3rd completion, and no 4th start can occur
(further updates are InvalidStateError). -/
theorem repeatBoundary :
    ((runN 1 startedRep 3).topState = .done ∧
     (runN 1 startedRep 3).repCount = 3 ∧
     (∀ k, k ≤ 2 → (runN 1 startedRep k).topState = .running ∧
                   (runN 1 startedRep k).repCount = k) ∧
     isInvalid ((runN 1 startedRep 3).update 1) = true) ∧
    (∀ (c : Core) (ch : CAction) (p q : Nat → Bool) (n : Nat) (dt : Time)
       (ch' : CAction), c.state = .running → ch.update dt = .ok ch' →
      (ch'.topState ≠ .done → ch'.topState ≠ .cancelled →
        CAction.update dt (.repA c ch p n) =
          .ok (.repA { c with elapsed := c.elapsed + dt } ch' p n) ∧
        CAction.update dt (.repA c ch q n) =
          .ok (.repA { c with elapsed := c.elapsed + dt } ch' q n)) ∧
      (ch'.topState = .done → p (n + 1) = true →
        ch'.reset.topState = .pending ∧
        (∀ ch'', ch'.reset.start = .ok ch'' →
          CAction.update dt (.repA c ch p n) =
            .ok (.repA { c with elapsed := c.elapsed + dt } ch'' p (n + 1)))) ∧
      (ch'.topState = .done → p (n + 1) = false →
        CAction.update dt (.repA c ch p n) =
          .ok (.repA (({ c with elapsed := c.elapsed + dt }).fireStop .completed .done)
                ch' p (n + 1)) ∧
        (({ c with elapsed := c.elapsed + dt } : Core).fireStop .completed .done).state =
          .done)) := by
  constructor
  · refine ⟨by decide, by decide, ?_, by decide⟩
    decide
  · intro c ch p q n dt ch' hc hu
    obtain ⟨aid, st, el, fd, nn, sr⟩ := c
    simp only at hc
    subst hc
    refine ⟨?_, ?_, ?_⟩
    · intro hd hcan
      cases hts : ch'.topState with
      | done => exact absurd hts hd
      | cancelled => exact absurd hts hcan
      | pending => constructor <;> simp [CAction.update, hu]
      | running => constructor <;> simp [CAction.update, hu]
      | paused => constructor <;> simp [CAction.update, hu]
    · intro hd hp
      constructor
      · cases ch' with
        | atom c2 b2 t2 => simp [CAction.reset, CAction.topState, CAction.core, Core.reset]
        | seqA c2 cs2 i2 => simp [CAction.reset, CAction.topState, CAction.core, Core.reset]
        | parA c2 cs2 => simp [CAction.reset, CAction.topState, CAction.core, Core.reset]
        | repA c2 ch2 p2 n2 => simp [CAction.reset, CAction.topState, CAction.core, Core.reset]
      · intro ch'' hr
        simp [CAction.update, hu]
        rw [hd]
        simp [hp, hr]
    · intro hd hp
      refine ⟨?_, by rw [fireStop_state]⟩
      simp [CAction.update, hu]
      rw [hd]
      simp [hp]

/-- Witness for C7's between-iterations clause at the concrete fixture: with
the count at 2, the 3rd completion flips Repeat(quickAtom, count < 3) to DONE
with count 3. -/
theorem repeatBoundary_witness :
    CAction.update 1 (.repA { freshCore 6 with state := .running }
        startedQuick lessThan3 2) =
      .ok (.repA (({ freshCore 6 with state := .running, elapsed := 0 + 1 } : Core).fireStop
            .completed .done) quickDone lessThan3 3) :=
  ((repeatBoundary.2 { freshCore 6 with state := .running } startedQuick
      lessThan3 lessThan3 2 1 quickDone rfl rfl).2.2 rfl (by decide)).1

/-- Whether an action starts cleanly into the RUNNING state. -/
def startsRunning (c : CAction) : Bool :=
  match c.start with
  | .ok b => b.topState == .running
  | .error _ => false

/-- A well-formed, not-yet-started child: PENDING and starting cleanly into
RUNNING. -/
def goodChild (c : CAction) : Bool :=
  (c.topState == .pending) && startsRunning c

theorem goodChild_start (c : CAction) (h : goodChild c = true) :
    c.topState = .pending ∧ ∃ b, c.start = .ok b ∧ b.topState = .running := by
  unfold goodChild startsRunning at h
  rw [Bool.and_eq_true] at h
  obtain ⟨h1, h2⟩ := h
  refine ⟨by simpa using h1, ?_⟩
  match hc : c.start with
  | .ok b => rw [hc] at h2; exact ⟨b, rfl, by simpa using h2⟩
  | .error e => rw [hc] at h2; simp at h2

theorem startAll_ok_elem (cs cs' : List CAction) (h : startAll cs = .ok cs') :
    cs'.length = cs.length ∧
    ∀ (j : Nat) (cj : CAction), cs[j]? = some cj → ∃ cj', cj.start = .ok cj' ∧ cs'[j]? = some cj' := by
  induction cs generalizing cs' with
  | nil =>
      simp [startAll] at h
      subst h; simp
  | cons c cs ih =>
      rw [startAll] at h
      match hc : c.start with
      | .error e => rw [hc] at h; simp at h
      | .ok c' =>
          rw [hc] at h
          match hs : startAll cs with
          | .error e => rw [hs] at h; simp at h
          | .ok cs2 =>
              rw [hs] at h; simp at h; subst h
              obtain ⟨hl, he⟩ := ih cs2 hs
              refine ⟨by simp [hl], ?_⟩
              intro j cj hj
              match j with
              | 0 =>
                  simp at hj ⊢
                  subst hj
                  exact hc
              | j + 1 =>
                  simp at hj ⊢
                  exact he j cj hj

theorem updAll_ok_elem (dt : Time) (cs cs' : List CAction)
    (h : updAll dt cs = .ok cs') :
    cs'.length = cs.length ∧
    ∀ (j : Nat) (cj : CAction), cs[j]? = some cj →
      (cj.topState.isTerminal = true ∧ cs'[j]? = some cj) ∨
      (cj.topState.isTerminal = false ∧
        ∃ cj', cj.update dt = .ok cj' ∧ cs'[j]? = some cj') := by
  induction cs generalizing cs' with
  | nil =>
      simp [updAll] at h
      subst h; simp
  | cons c cs ih =>
      rw [updAll] at h
      by_cases hterm : c.topState.isTerminal = true
      · rw [hterm] at h
        simp at h
        match hs : updAll dt cs with
        | .error e => rw [hs] at h; simp at h
        | .ok cs2 =>
            rw [hs] at h; simp at h; subst h
            obtain ⟨hl, he⟩ := ih cs2 hs
            refine ⟨by simp [hl], ?_⟩
            intro j cj hj
            match j with
            | 0 =>
                simp at hj ⊢
                subst hj
                left; exact ⟨hterm, rfl⟩
            | j + 1 =>
                simp at hj ⊢
                exact he j cj hj
      · rw [Bool.not_eq_true] at hterm
        rw [hterm] at h
        simp at h
        match hc : c.update dt with
        | .error e => rw [hc] at h; simp at h
        | .ok c' =>
            rw [hc] at h
            match hs : updAll dt cs with
            | .error e => rw [hs] at h; simp at h
            | .ok cs2 =>
                rw [hs] at h; simp at h; subst h
                obtain ⟨hl, he⟩ := ih cs2 hs
                refine ⟨by simp [hl], ?_⟩
                intro j cj hj
                match j with
                | 0 =>
                    simp at hj ⊢
                    subst hj
                    right; exact ⟨hterm, hc⟩
                | j + 1 =>
                    simp at hj ⊢
                    exact he j cj hj

theorem allTerminal_iff (cs : List CAction) :
    allTerminal cs = true ↔
      ∀ (j : Nat) (cj : CAction), cs[j]? = some cj → cj.topState.isTerminal = true := by
  induction cs with
  | nil => simp [allTerminal]
  | cons c cs ih =>
      rw [allTerminal, Bool.and_eq_true, ih]
      constructor
      · rintro ⟨h1, h2⟩ j cj hj
        match j with
        | 0 => simp at hj; subst hj; exact h1
        | j + 1 => simp at hj; exact h2 j cj hj
      · intro h
        refine ⟨h 0 c (by simp), fun j cj hj => h (j + 1) cj (by simpa using hj)⟩

/-- The reachability invariant of a Parallel node: before start all children
are well-formed and PENDING; while RUNNING or PAUSED not every child is
terminal (so the Parallel is not yet allowed to be DONE); DONE exactly when
every child is terminal (spec section 4.2's completion policy). -/
def ParInv : AState → List CAction → Prop := fun st cs =>
  match st with
  | .pending => ∀ (j : Nat) (cj : CAction), cs[j]? = some cj → goodChild cj = true
  | .running => allTerminal cs = false
  | .paused => allTerminal cs = false
  | .done => allTerminal cs = true
  | .cancelled => True

theorem par_step (c : Core) (cs : List CAction) (s' : CAction)
    (h : Step (.parA c cs) s') (hi : ParInv c.state cs) :
    ∃ c' cs', s' = .parA c' cs' ∧ ParInv c'.state cs' := by
  cases h with
  | start b hs =>
      obtain ⟨aid, st, el, fd, n, sr⟩ := c
      cases st <;> simp [CAction.start] at hs
      case pending =>
          match hss : startAll cs with
          | .error e => rw [hss] at hs; simp at hs
          | .ok [] =>
              rw [hss] at hs; simp at hs; subst hs
              exact ⟨_, _, rfl, by simp [ParInv, fireStop_state, allTerminal]⟩
          | .ok (x :: xs) =>
              rw [hss] at hs; simp at hs; subst hs
              refine ⟨_, _, rfl, ?_⟩
              have hx : x.topState = .running := by
                match cs, hi with
                | [], _ => simp [startAll] at hss
                | c0 :: rest, hi =>
                    have hg : goodChild c0 = true := hi 0 c0 (by simp)
                    obtain ⟨_, b0, hb0, hb0r⟩ := goodChild_start c0 hg
                    obtain ⟨_, he⟩ := startAll_ok_elem _ _ hss
                    obtain ⟨cj', hcj', hcj0⟩ := he 0 c0 (by simp)
                    rw [hb0] at hcj'
                    simp at hcj'
                    simp at hcj0
                    rw [hcj0, ← hcj']
                    exact hb0r
              simp [ParInv, allTerminal, hx, AState.isTerminal]
  | update b dt hu =>
      obtain ⟨aid, st, el, fd, n, sr⟩ := c
      cases st <;> simp [CAction.update] at hu
      case paused =>
          subst hu
          exact ⟨_, _, rfl, hi⟩
      case running =>
          match hss : updAll dt cs with
          | .error e => rw [hss] at hu; simp at hu
          | .ok cs' =>
              rw [hss] at hu
              by_cases ht : allTerminal cs' = true
              · simp [ht] at hu; subst hu
                exact ⟨_, _, rfl, by simp [ParInv, fireStop_state, ht]⟩
              · simp [ht] at hu; subst hu
                refine ⟨_, _, rfl, ?_⟩
                simp only [ParInv]
                exact Bool.not_eq_true _ ▸ ht
  | pause b hp =>
      obtain ⟨hr, hb⟩ := pause_cases _ _ hp
      simp [CAction.core] at hr
      rw [hb]
      refine ⟨{ c with state := .paused }, cs, ?_, ?_⟩
      · simp [CAction.withCore, CAction.core]
      · rw [hr] at hi
        simpa [ParInv] using hi
  | resume b hp =>
      obtain ⟨hr, hb⟩ := resume_cases _ _ hp
      simp [CAction.core] at hr
      rw [hb]
      refine ⟨{ c with state := .running }, cs, ?_, ?_⟩
      · simp [CAction.withCore, CAction.core]
      · rw [hr] at hi
        simpa [ParInv] using hi
  | stop r =>
      by_cases ha : c.state.isActive = true
      · have hstop : CAction.stop r (.parA c cs) =
            .parA (c.fireStop r .cancelled) (stopAll cs) := by
          simp [CAction.stop, ha]
        rw [hstop]
        exact ⟨_, _, rfl, by simp [ParInv, fireStop_state]⟩
      · rw [stop_of_not_active _ r (by simpa using ha)]
        exact ⟨_, _, rfl, hi⟩

theorem par_reach (c0 : Core) (cs0 : List CAction) (s : CAction)
    (hr : Reach (.parA c0 cs0) s) (hi : ParInv c0.state cs0) :
    ∃ c cs, s = .parA c cs ∧ ParInv c.state cs := by
  induction hr with
  | refl => exact ⟨c0, cs0, rfl, hi⟩
  | tail hstep hlast ih =>
      obtain ⟨c1, cs1, heq, hinv⟩ := ih
      subst heq
      exact par_step c1 cs1 _ hlast hinv

/-- A behavior that mutates nothing and completes after three frames. -/
def slowBehavior : Behavior :=
  { applyFrame := fun t _ => t, cond := fun e _ => decide (3 ≤ e) }

/-- A fixture: an atomic action completing on its third update. -/
def slowAtom : CAction := .atom (freshCore 9) slowBehavior (some zeroTarget)

/-- A fixture: Parallel of a 1-tick child and a 3-tick child. -/
def parAB : CAction := .parA (freshCore 10) [quickAtom, slowAtom]

/-- The Parallel fixture, started. -/
def startedPar : CAction := okOr parAB parAB.start

/-- A fixture: a running Parallel over one started child. -/
def parW : CAction := .parA { freshCore 11 with state := .running } [startedQuick]

/-- C6: Parallel join semantics: a started Parallel is DONE exactly when every
child is terminal; in any reachable state a RUNNING/PAUSED Parallel still has
a non-terminal child and a DONE Parallel has only terminal children; one
update advances every still-active child by its own update (terminal children
are left untouched, so an early finisher does not stop its siblings); and
concretely Parallel(1-tick child, 3-tick child) is RUNNING after ticks 1 and
2 and DONE only at tick 3. -/
theorem parallelJoin :
    ((runN 1 startedPar 1).topState = .running ∧
     (runN 1 startedPar 2).topState = .running ∧
     (runN 1 startedPar 3).topState = .done) ∧
    (∀ (c0 : Core) (cs0 : List CAction) (s : CAction), c0.state = .pending →
      (∀ (j : Nat) (cj : CAction), cs0[j]? = some cj → goodChild cj = true) →
      Reach (.parA c0 cs0) s →
      ∃ c cs, s = .parA c cs ∧
        (c.state = .done → allTerminal cs = true) ∧
        ((c.state = .running ∨ c.state = .paused) → allTerminal cs = false)) ∧
    (∀ (c : Core) (cs : List CAction) (dt : Time) (s' : CAction),
      c.state = .running → CAction.update dt (.parA c cs) = .ok s' →
      ∃ cs', updAll dt cs = .ok cs' ∧ cs'.length = cs.length ∧
        (s' = .parA (({ c with elapsed := c.elapsed + dt }).fireStop .completed .done) cs' ∨
         s' = .parA { c with elapsed := c.elapsed + dt } cs') ∧
        (s'.topState = .done ↔ allTerminal cs' = true) ∧
        (∀ (j : Nat) (cj : CAction), cs[j]? = some cj →
          (cj.topState.isTerminal = true ∧ cs'[j]? = some cj) ∨
          (cj.topState.isTerminal = false ∧
            ∃ cj', cj.update dt = .ok cj' ∧ cs'[j]? = some cj'))) := by
  refine ⟨⟨by decide, by decide, by decide⟩, ?_, ?_⟩
  · intro c0 cs0 s hp hg hr
    have hi : ParInv c0.state cs0 := by
      rw [hp]; simpa [ParInv] using hg
    obtain ⟨c, cs, heq, hinv⟩ := par_reach c0 cs0 s hr hi
    refine ⟨c, cs, heq, ?_, ?_⟩
    · intro hd; rw [hd] at hinv; simpa [ParInv] using hinv
    · rintro (hss | hss) <;> rw [hss] at hinv <;> simpa [ParInv] using hinv
  · intro c cs dt s' hc hu
    obtain ⟨aid, st, el, fd, n, sr⟩ := c
    simp only at hc
    subst hc
    simp [CAction.update] at hu
    match hss : updAll dt cs with
    | .error e => rw [hss] at hu; simp at hu
    | .ok cs' =>
        rw [hss] at hu
        obtain ⟨hl, he⟩ := updAll_ok_elem dt cs cs' hss
        by_cases ht : allTerminal cs' = true
        · simp [ht] at hu; subst hu
          refine ⟨cs', rfl, hl, .inl rfl, ?_, he⟩
          simp [CAction.topState, CAction.core, fireStop_state, ht]
        · simp [ht] at hu; subst hu
          refine ⟨cs', rfl, hl, .inr rfl, ?_, he⟩
          simp [CAction.topState, CAction.core]
          simpa using ht

/-- Witness for C6's single-update clause at a concrete running Parallel. -/
theorem parallelJoin_witness :
    ∃ cs', updAll 1 [startedQuick] = .ok cs' ∧
      cs'.length = ([startedQuick] : List CAction).length ∧
      (okOr parW (parW.update 1) =
        .parA (({ freshCore 11 with state := .running, elapsed := 0 + 1 } : Core).fireStop
          .completed .done) cs' ∨
       okOr parW (parW.update 1) =
        .parA { freshCore 11 with state := .running, elapsed := 0 + 1 } cs') ∧
      ((okOr parW (parW.update 1)).topState = .done ↔ allTerminal cs' = true) ∧
      (∀ (j : Nat) (cj : CAction), ([startedQuick] : List CAction)[j]? = some cj →
        (cj.topState.isTerminal = true ∧ cs'[j]? = some cj) ∨
        (cj.topState.isTerminal = false ∧
          ∃ cj', cj.update 1 = .ok cj' ∧ cs'[j]? = some cj')) :=
  parallelJoin.2.2 { freshCore 11 with state := .running } [startedQuick] 1
    (okOr parW (parW.update 1)) rfl rfl

theorem updAt_ok_elem (dt : Time) (cs cs' : List CAction) (i : Nat) (st : AState)
    (h : updAt dt cs i = .ok (cs', st)) :
    ∃ ci ci', cs[i]? = some ci ∧ ci.update dt = .ok ci' ∧
      st = ci'.topState ∧ cs' = cs.set i ci' := by
  induction cs generalizing cs' i with
  | nil => simp [updAt] at h
  | cons c cs ih =>
      match i with
      | 0 =>
          rw [updAt] at h
          match hc : c.update dt with
          | .error e => rw [hc] at h; simp at h
          | .ok c' =>
              rw [hc] at h; simp at h
              obtain ⟨h1, h2⟩ := h
              exact ⟨c, c', by simp, hc, h2.symm, by simp [← h1]⟩
      | i + 1 =>
          rw [updAt] at h
          match hs : updAt dt cs i with
          | .error e => rw [hs] at h; simp at h
          | .ok (cs2, st2) =>
              rw [hs] at h; simp at h
              obtain ⟨h1, h2⟩ := h
              subst h2
              obtain ⟨ci, ci', hci, hup, hst, hset⟩ := ih cs2 i hs
              exact ⟨ci, ci', by simpa using hci, hup, hst,
                by simp [← h1, hset]⟩

theorem startAt_ok_some (cs cs' : List CAction) (n : Nat)
    (h : startAt cs n = .ok (some cs')) :
    ∃ cn cn', cs[n]? = some cn ∧ cn.start = .ok cn' ∧ cs' = cs.set n cn' := by
  induction cs generalizing cs' n with
  | nil => simp [startAt] at h
  | cons c cs ih =>
      match n with
      | 0 =>
          rw [startAt] at h
          match hc : c.start with
          | .error e => rw [hc] at h; simp at h
          | .ok c' =>
              rw [hc] at h; simp at h
              exact ⟨c, c', by simp, hc, by simp [← h]⟩
      | n + 1 =>
          rw [startAt] at h
          match hs : startAt cs n with
          | .error e => rw [hs] at h; simp at h
          | .ok none => rw [hs] at h; simp at h
          | .ok (some cs2) =>
              rw [hs] at h; simp at h
              obtain ⟨cn, cn', hcn, hstart, hset⟩ := ih cs2 n hs
              exact ⟨cn, cn', by simpa using hcn, hstart, by simp [← h, hset]⟩

theorem startAt_ok_none (cs : List CAction) (n : Nat)
    (h : startAt cs n = .ok none) : cs.length ≤ n := by
  induction cs generalizing n with
  | nil => simp
  | cons c cs ih =>
      match n with
      | 0 =>
          rw [startAt] at h
          match hc : c.start with
          | .error e => rw [hc] at h; simp at h
          | .ok c' => rw [hc] at h; simp at h
      | n + 1 =>
          rw [startAt] at h
          match hs : startAt cs n with
          | .error e => rw [hs] at h; simp at h
          | .ok (some cs2) => rw [hs] at h; simp at h
          | .ok none => simpa using Nat.succ_le_succ (ih n hs)

theorem stopAll_eq_map (cs : List CAction) :
    stopAll cs = cs.map (CAction.stop .cancelled) := by
  induction cs with
  | nil => rfl
  | cons c cs ih => rw [stopAll, ih]; rfl

theorem stop_topState_active (a : CAction) (r : StopReason)
    (h : a.core.state.isActive = true) : (a.stop r).topState = .cancelled := by
  rw [CAction.topState, stop_core_of_active a r h, fireStop_state]

theorem update_topState_of_running (dt : Time) (a b : CAction)
    (ha : a.topState = .running) (h : CAction.update dt a = .ok b) :
    b.topState = .running ∨ b.topState = .done ∨ b.topState = .cancelled := by
  rcases update_core_cases dt a b h with ⟨hpau, _⟩ | ⟨_, hb | hb | ⟨r, s, hst, hb⟩⟩
  · rw [CAction.topState] at ha; rw [ha] at hpau; exact absurd hpau (by simp)
  · left; rw [CAction.topState, hb]; exact ha
  · right; right; rw [CAction.topState, hb, fireStop_state]
  · rw [CAction.topState, hb, fireStop_state]
    cases s <;> simp_all [AState.isTerminal]

theorem updAt_eq (dt : Time) (cs : List CAction) (i : Nat) (ci ci' : CAction)
    (hci : cs[i]? = some ci) (hup : ci.update dt = .ok ci') :
    updAt dt cs i = .ok (cs.set i ci', ci'.topState) := by
  induction cs generalizing i with
  | nil => simp at hci
  | cons c cs ih =>
      match i with
      | 0 =>
          simp at hci
          subst hci
          rw [updAt, hup]
          simp
      | i + 1 =>
          simp at hci
          rw [updAt, ih i hci]
          simp

theorem startAt_eq (cs : List CAction) (n : Nat) (cn cn' : CAction)
    (hcn : cs[n]? = some cn) (hs : cn.start = .ok cn') :
    startAt cs n = .ok (some (cs.set n cn')) := by
  induction cs generalizing n with
  | nil => simp at hcn
  | cons c cs ih =>
      match n with
      | 0 =>
          simp at hcn
          subst hcn
          rw [startAt, hs]
          simp
      | n + 1 =>
          simp at hcn
          rw [startAt, ih n hcn]
          simp

theorem goodChild_pending (c : CAction) (h : goodChild c = true) :
    c.topState = .pending := (goodChild_start c h).1

/-- The reachability invariant of a Sequence node: before start the index is 0
and all children are well-formed and PENDING; while RUNNING or PAUSED every
child before the index is DONE, the child at the index is RUNNING, and every
child after the index is still untouched (well-formed PENDING); when DONE all
children are DONE; when CANCELLED the prefix is DONE, the current child is
terminal, and the remaining children are still PENDING (they were skipped). -/
def SeqInv : AState → List CAction → Nat → Prop := fun st cs i =>
  match st with
  | .pending => i = 0 ∧ ∀ (j : Nat) (cj : CAction), cs[j]? = some cj → goodChild cj = true
  | .running =>
      i < cs.length ∧
      (∀ (j : Nat) (cj : CAction), j < i → cs[j]? = some cj → cj.topState = .done) ∧
      (∀ cj : CAction, cs[i]? = some cj → cj.topState = .running) ∧
      (∀ (j : Nat) (cj : CAction), i < j → cs[j]? = some cj → goodChild cj = true)
  | .paused =>
      i < cs.length ∧
      (∀ (j : Nat) (cj : CAction), j < i → cs[j]? = some cj → cj.topState = .done) ∧
      (∀ cj : CAction, cs[i]? = some cj → cj.topState = .running) ∧
      (∀ (j : Nat) (cj : CAction), i < j → cs[j]? = some cj → goodChild cj = true)
  | .done => ∀ (j : Nat) (cj : CAction), cs[j]? = some cj → cj.topState = .done
  | .cancelled =>
      (∀ (j : Nat) (cj : CAction), j < i → cs[j]? = some cj → cj.topState = .done) ∧
      (∀ cj : CAction, cs[i]? = some cj → cj.topState.isTerminal = true) ∧
      (∀ (j : Nat) (cj : CAction), i < j → cs[j]? = some cj → cj.topState = .pending)

theorem seqInv_no_two_active (st : AState) (cs : List CAction) (i : Nat)
    (hi : SeqInv st cs i) :
    ∀ (j k : Nat) (cj ck : CAction), j < k → cs[j]? = some cj →
      cs[k]? = some ck → cj.topState.isActive = true →
      ck.topState.isActive = true → False := by
  intro j k cj ck hjk hj hk haj hak
  cases st with
  | pending =>
      obtain ⟨_, hg⟩ := hi
      have := goodChild_pending cj (hg j cj hj)
      rw [this] at haj
      simp [AState.isActive] at haj
  | running =>
      obtain ⟨hlen, hpre, hcur, hsuf⟩ := hi
      have hji : j = i := by
        rcases Nat.lt_trichotomy j i with hlt | heq | hgt
        · rw [hpre j cj hlt hj] at haj; simp [AState.isActive] at haj
        · exact heq
        · rw [goodChild_pending cj (hsuf j cj hgt hj)] at haj
          simp [AState.isActive] at haj
      have hki : k = i := by
        rcases Nat.lt_trichotomy k i with hlt | heq | hgt
        · rw [hpre k ck hlt hk] at hak; simp [AState.isActive] at hak
        · exact heq
        · rw [goodChild_pending ck (hsuf k ck hgt hk)] at hak
          simp [AState.isActive] at hak
      omega
  | paused =>
      obtain ⟨hlen, hpre, hcur, hsuf⟩ := hi
      have hji : j = i := by
        rcases Nat.lt_trichotomy j i with hlt | heq | hgt
        · rw [hpre j cj hlt hj] at haj; simp [AState.isActive] at haj
        · exact heq
        · rw [goodChild_pending cj (hsuf j cj hgt hj)] at haj
          simp [AState.isActive] at haj
      have hki : k = i := by
        rcases Nat.lt_trichotomy k i with hlt | heq | hgt
        · rw [hpre k ck hlt hk] at hak; simp [AState.isActive] at hak
        · exact heq
        · rw [goodChild_pending ck (hsuf k ck hgt hk)] at hak
          simp [AState.isActive] at hak
      omega
  | done =>
      rw [hi j cj hj] at haj
      simp [AState.isActive] at haj
  | cancelled =>
      obtain ⟨hpre, hcur, hsuf⟩ := hi
      rcases Nat.lt_trichotomy j i with hlt | heq | hgt
      · rw [hpre j cj hlt hj] at haj; simp [AState.isActive] at haj
      · subst heq
        have := hcur cj hj
        rw [terminal_not_active _ this] at haj
        simp at haj
      · rw [hsuf j cj hgt hj] at haj
        simp [AState.isActive] at haj

theorem seq_step (c : Core) (cs : List CAction) (i : Nat) (s' : CAction)
    (h : Step (.seqA c cs i) s') (hi : SeqInv c.state cs i) :
    ∃ c' cs' i', s' = .seqA c' cs' i' ∧ cs'.length = cs.length ∧
      SeqInv c'.state cs' i' := by
  cases h with
  | start b hs =>
      obtain ⟨aid, st, el, fd, n, sr⟩ := c
      cases st <;> simp [CAction.start] at hs
      case pending =>
          obtain ⟨hi0, hig⟩ := hi
          match hss : startAt cs 0 with
          | .error e => rw [hss] at hs; simp at hs
          | .ok none =>
              rw [hss] at hs; simp at hs; subst hs
              have hnil : cs = [] :=
                List.eq_nil_of_length_eq_zero
                  (Nat.le_zero.mp (startAt_ok_none cs 0 hss))
              subst hnil
              refine ⟨_, _, _, rfl, rfl, ?_⟩
              rw [fireStop_state]
              intro j cj hj
              simp at hj
          | .ok (some cs2) =>
              rw [hss] at hs; simp at hs; subst hs
              obtain ⟨c0, c0', hc0, hc0s, hset⟩ := startAt_ok_some cs cs2 0 hss
              subst hset
              have hlen0 : 0 < cs.length :=
                List.getElem?_eq_some.mp hc0 |>.choose
              have hg : goodChild c0 = true := hig 0 c0 hc0
              obtain ⟨_, b0, hb0, hb0r⟩ := goodChild_start c0 hg
              rw [hb0] at hc0s
              injection hc0s with hbc
              refine ⟨_, _, _, rfl, by simp, ?_⟩
              refine ⟨by simpa using hlen0, ?_, ?_, ?_⟩
              · intro j cj hj hjc
                exact absurd hj (Nat.not_lt_zero j)
              · intro cj hcj
                rw [List.getElem?_set_eq_of_lt c0' hlen0] at hcj
                injection hcj with hcj
                rw [← hcj, ← hbc]
                exact hb0r
              · intro j cj hj hjc
                rw [List.getElem?_set_ne (by omega : (0 : Nat) ≠ j)] at hjc
                exact hig j cj hjc
  | update b dt hu =>
      obtain ⟨aid, st, el, fd, n, sr⟩ := c
      cases st <;> simp [CAction.update] at hu
      case paused =>
          subst hu
          exact ⟨_, _, _, rfl, rfl, hi⟩
      case running =>
          obtain ⟨hlen, hpre, hcur, hsuf⟩ := hi
          match hua : updAt dt cs i with
          | .error e => rw [hua] at hu; simp at hu
          | .ok (cs1, stc) =>
              rw [hua] at hu
              obtain ⟨ci, ci', hci, hup, hst, hset1⟩ :=
                updAt_ok_elem dt cs cs1 i stc hua
              have hcir : ci.topState = .running := hcur ci hci
              have hci3 := update_topState_of_running dt ci ci' hcir hup
              subst hset1
              subst hst
              rcases hci3 with hr3 | hr3 | hr3 <;> rw [hr3] at hu
              · -- current child still RUNNING
                simp at hu; subst hu
                refine ⟨_, _, _, rfl, by simp, ?_⟩
                refine ⟨by simpa using hlen, ?_, ?_, ?_⟩
                · intro j cj hj hjc
                  rw [List.getElem?_set_ne (by omega : i ≠ j)] at hjc
                  exact hpre j cj hj hjc
                · intro cj hcj
                  rw [List.getElem?_set_eq_of_lt ci' hlen] at hcj
                  injection hcj with hcj
                  rw [← hcj]; exact hr3
                · intro j cj hj hjc
                  rw [List.getElem?_set_ne (by omega : i ≠ j)] at hjc
                  exact hsuf j cj hj hjc
              · -- current child DONE: advance or finish
                simp at hu
                match hsa : startAt (cs.set i ci') (i + 1) with
                | .error e => rw [hsa] at hu; simp at hu
                | .ok (some cs2) =>
                    rw [hsa] at hu; simp at hu; subst hu
                    obtain ⟨cn, cn', hcn, hcns, hset2⟩ :=
                      startAt_ok_some _ cs2 (i + 1) hsa
                    subst hset2
                    rw [List.getElem?_set_ne (by omega : i ≠ i + 1)] at hcn
                    have hgn : goodChild cn = true :=
                      hsuf (i + 1) cn (by omega) hcn
                    obtain ⟨_, bn, hbn, hbnr⟩ := goodChild_start cn hgn
                    rw [hbn] at hcns
                    injection hcns with hbc
                    have hlen2 : i + 1 < cs.length :=
                      List.getElem?_eq_some.mp hcn |>.choose
                    refine ⟨_, _, _, rfl, by simp, ?_⟩
                    refine ⟨by simpa using hlen2, ?_, ?_, ?_⟩
                    · intro j cj hj hjc
                      rcases Nat.lt_succ_iff_lt_or_eq.mp hj with hji | hji
                      · rw [List.getElem?_set_ne (by omega : i + 1 ≠ j),
                            List.getElem?_set_ne (by omega : i ≠ j)] at hjc
                        exact hpre j cj hji hjc
                      · rw [hji] at hjc
                        rw [List.getElem?_set_ne (by omega : i + 1 ≠ i)] at hjc
                        rw [List.getElem?_set_eq_of_lt ci' hlen] at hjc
                        injection hjc with hjc
                        rw [← hjc]; exact hr3
                    · intro cj hcj
                      rw [List.getElem?_set_eq_of_lt cn' (by simpa using hlen2)] at hcj
                      injection hcj with hcj
                      rw [← hcj, ← hbc]; exact hbnr
                    · intro j cj hj hjc
                      rw [List.getElem?_set_ne (by omega : i + 1 ≠ j),
                          List.getElem?_set_ne (by omega : i ≠ j)] at hjc
                      exact hsuf j cj (by omega) hjc
                | .ok none =>
                    rw [hsa] at hu; simp at hu; subst hu
                    have hle : cs.length ≤ i + 1 := by
                      simpa using startAt_ok_none _ (i + 1) hsa
                    refine ⟨_, _, _, rfl, by simp, ?_⟩
                    rw [fireStop_state]
                    intro j cj hjc
                    by_cases hji : j = i
                    · subst hji
                      rw [List.getElem?_set_eq_of_lt ci' hlen] at hjc
                      injection hjc with hjc
                      rw [← hjc]; exact hr3
                    · rw [List.getElem?_set_ne (by omega : i ≠ j)] at hjc
                      have hjlt : j < cs.length :=
                        List.getElem?_eq_some.mp hjc |>.choose
                      exact hpre j cj (by omega) hjc
              · -- current child CANCELLED: the whole Sequence cancels
                simp at hu; subst hu
                refine ⟨_, _, _, rfl, by simp, ?_⟩
                rw [fireStop_state]
                refine ⟨?_, ?_, ?_⟩
                · intro j cj hj hjc
                  rw [List.getElem?_set_ne (by omega : i ≠ j)] at hjc
                  exact hpre j cj hj hjc
                · intro cj hcj
                  rw [List.getElem?_set_eq_of_lt ci' hlen] at hcj
                  injection hcj with hcj
                  rw [← hcj, hr3]
                  simp [AState.isTerminal]
                · intro j cj hj hjc
                  rw [List.getElem?_set_ne (by omega : i ≠ j)] at hjc
                  exact goodChild_pending cj (hsuf j cj hj hjc)
  | pause b hp =>
      obtain ⟨hr, hb⟩ := pause_cases _ _ hp
      simp [CAction.core] at hr
      rw [hb]
      refine ⟨{ c with state := .paused }, cs, i, ?_, rfl, ?_⟩
      · simp [CAction.withCore, CAction.core]
      · rw [hr] at hi
        exact hi
  | resume b hp =>
      obtain ⟨hr, hb⟩ := resume_cases _ _ hp
      simp [CAction.core] at hr
      rw [hb]
      refine ⟨{ c with state := .running }, cs, i, ?_, rfl, ?_⟩
      · simp [CAction.withCore, CAction.core]
      · rw [hr] at hi
        exact hi
  | stop r =>
      by_cases ha : c.state.isActive = true
      · have hstop : CAction.stop r (.seqA c cs i) =
            .seqA (c.fireStop r .cancelled) (stopAll cs) i := by
          simp [CAction.stop, CAction.core, ha]
        rw [hstop]
        refine ⟨_, _, _, rfl, by simp [stopAll_eq_map], ?_⟩
        rw [fireStop_state, stopAll_eq_map]
        have hparts : i < cs.length ∧
            (∀ (j : Nat) (cj : CAction), j < i → cs[j]? = some cj →
              cj.topState = .done) ∧
            (∀ cj : CAction, cs[i]? = some cj → cj.topState = .running) := by
          cases hcs : c.state <;> rw [hcs] at hi <;>
            simp [AState.isActive, hcs] at ha
          · exact ⟨hi.1, hi.2.1, hi.2.2.1⟩
          · exact ⟨hi.1, hi.2.1, hi.2.2.1⟩
        obtain ⟨hlen, hpre, hcur⟩ := hparts
        have hsuf : ∀ (j : Nat) (cj : CAction), i < j → cs[j]? = some cj →
            goodChild cj = true := by
          cases hcs : c.state <;> rw [hcs] at hi <;>
            simp [AState.isActive, hcs] at ha
          · exact hi.2.2.2
          · exact hi.2.2.2
        refine ⟨?_, ?_, ?_⟩
        · intro j cj hj hjc
          rw [List.getElem?_map] at hjc
          rcases Option.map_eq_some'.mp hjc with ⟨cj0, hcj0, hstop0⟩
          have hd := hpre j cj0 hj hcj0
          rw [← hstop0,
              stop_of_not_active cj0 _ (by
                rw [show cj0.core.state = cj0.topState from rfl, hd]
                simp [AState.isActive])]
          exact hd
        · intro cj hcj
          rw [List.getElem?_map] at hcj
          rcases Option.map_eq_some'.mp hcj with ⟨cj0, hcj0, hstop0⟩
          have hrun := hcur cj0 hcj0
          rw [← hstop0, stop_topState_active cj0 _ (by
            rw [show cj0.core.state = cj0.topState from rfl, hrun]
            simp [AState.isActive])]
          simp [AState.isTerminal]
        · intro j cj hj hjc
          rw [List.getElem?_map] at hjc
          rcases Option.map_eq_some'.mp hjc with ⟨cj0, hcj0, hstop0⟩
          have hpend := goodChild_pending cj0 (hsuf j cj0 hj hcj0)
          rw [← hstop0,
              stop_of_not_active cj0 _ (by
                rw [show cj0.core.state = cj0.topState from rfl, hpend]
                simp [AState.isActive])]
          exact hpend
      · rw [stop_of_not_active _ r (by simpa [CAction.core] using ha)]
        exact ⟨_, _, _, rfl, rfl, hi⟩

theorem seq_reach (c0 : Core) (cs0 : List CAction) (i0 : Nat) (s : CAction)
    (hr : Reach (.seqA c0 cs0 i0) s) (hi : SeqInv c0.state cs0 i0) :
    ∃ c cs i, s = .seqA c cs i ∧ cs.length = cs0.length ∧
      SeqInv c.state cs i := by
  induction hr with
  | refl => exact ⟨c0, cs0, i0, rfl, rfl, hi⟩
  | tail hstep hlast ih =>
      obtain ⟨c1, cs1, i1, heq, hl, hinv⟩ := ih
      subst heq
      obtain ⟨c2, cs2, i2, heq2, hl2, hinv2⟩ := seq_step c1 cs1 i1 _ hlast hinv
      exact ⟨c2, cs2, i2, heq2, hl2.trans hl, hinv2⟩

theorem startAt_err (cs : List CAction) (n : Nat) (cn : CAction) (e : SchedErr)
    (hcn : cs[n]? = some cn) (hs : cn.start = .error e) :
    startAt cs n = .error e := by
  induction cs generalizing n with
  | nil => simp at hcn
  | cons c cs ih =>
      match n with
      | 0 =>
          simp at hcn
          subst hcn
          rw [startAt, hs]
      | n + 1 =>
          simp at hcn
          rw [startAt, ih n hcn]

/-- C5: Sequence ordering: in every reachable state of a started Sequence the
children before the current index are DONE, the current child is RUNNING, and
the children after it are still PENDING, so children run one at a time in
list order and no two children are ever simultaneously active; the Sequence
is DONE only when every child (in particular the last) is DONE; a CANCELLED
Sequence has skipped its remaining children (they stay PENDING); and on the
tick where the current child reaches DONE the next child, when one exists, is
started and RUNNING immediately, while a CANCELLED child cancels the whole
Sequence on the spot. -/
theorem sequenceOrdering :
    (∀ (c0 : Core) (cs0 : List CAction) (s : CAction), c0.state = .pending →
      (∀ (j : Nat) (cj : CAction), cs0[j]? = some cj → goodChild cj = true) →
      Reach (.seqA c0 cs0 0) s →
      ∃ c cs i, s = .seqA c cs i ∧ cs.length = cs0.length ∧
        SeqInv c.state cs i ∧
        (∀ (j k : Nat) (cj ck : CAction), j < k → cs[j]? = some cj →
          cs[k]? = some ck → cj.topState.isActive = true →
          ck.topState.isActive = true → False) ∧
        ((c.state = .running ∨ c.state = .paused) →
          (∀ (j : Nat) (cj : CAction), j < i → cs[j]? = some cj →
            cj.topState = .done) ∧
          (∀ (j : Nat) (cj : CAction), i < j → cs[j]? = some cj →
            cj.topState = .pending)) ∧
        (c.state = .done → ∀ (j : Nat) (cj : CAction), cs[j]? = some cj →
          cj.topState = .done) ∧
        (c.state = .cancelled → ∀ (j : Nat) (cj : CAction), i < j →
          cs[j]? = some cj → cj.topState = .pending)) ∧
    (∀ (c : Core) (cs : List CAction) (i : Nat) (dt : Time) (s' : CAction)
       (ci ci' : CAction), c.state = .running → cs[i]? = some ci →
      ci.update dt = .ok ci' → CAction.update dt (.seqA c cs i) = .ok s' →
      (ci'.topState = .done → i + 1 < cs.length →
        ∃ cn cn', cs[i + 1]? = some cn ∧ cn.start = .ok cn' ∧
          s' = .seqA { c with elapsed := c.elapsed + dt }
                ((cs.set i ci').set (i + 1) cn') (i + 1) ∧
          (goodChild cn = true → cn'.topState = .running)) ∧
      (ci'.topState = .cancelled →
        s' = .seqA (({ c with elapsed := c.elapsed + dt }).fireStop
              .cancelled .cancelled) (cs.set i ci') i ∧
        (({ c with elapsed := c.elapsed + dt } : Core).fireStop
            .cancelled .cancelled).state = .cancelled)) := by
  constructor
  · intro c0 cs0 s hp hg hr
    have hi : SeqInv c0.state cs0 0 := by
      rw [hp]; exact ⟨rfl, hg⟩
    obtain ⟨c, cs, i, heq, hl, hinv⟩ := seq_reach c0 cs0 0 s hr hi
    refine ⟨c, cs, i, heq, hl, hinv, seqInv_no_two_active _ _ _ hinv, ?_, ?_, ?_⟩
    · rintro (hcs | hcs) <;> rw [hcs] at hinv
      · exact ⟨hinv.2.1, fun j cj hj hjc =>
          goodChild_pending cj (hinv.2.2.2 j cj hj hjc)⟩
      · exact ⟨hinv.2.1, fun j cj hj hjc =>
          goodChild_pending cj (hinv.2.2.2 j cj hj hjc)⟩
    · intro hcs; rw [hcs] at hinv; exact hinv
    · intro hcs; rw [hcs] at hinv; exact hinv.2.2
  · intro c cs i dt s' ci ci' hc hci hup hu
    obtain ⟨aid, st, el, fd, n, sr⟩ := c
    simp only at hc
    subst hc
    simp [CAction.update] at hu
    rw [updAt_eq dt cs i ci ci' hci hup] at hu
    simp at hu
    constructor
    · intro hd hlen2
      rw [hd] at hu
      simp at hu
      have hcn : (cs.set i ci')[i + 1]? = cs[i + 1]? :=
        List.getElem?_set_ne (by omega : i ≠ i + 1)
      have hcn2 : cs[i + 1]? = some cs[i + 1] := List.getElem?_eq_getElem hlen2
      match hcs : cs[i + 1].start with
      | .error e =>
          rw [startAt_err (cs.set i ci') (i + 1) cs[i + 1] e
              (hcn.trans hcn2) hcs] at hu
          simp at hu
      | .ok cn' =>
          rw [startAt_eq (cs.set i ci') (i + 1) cs[i + 1] cn'
              (hcn.trans hcn2) hcs] at hu
          simp at hu
          subst hu
          refine ⟨cs[i + 1], cn', hcn2, hcs, rfl, ?_⟩
          intro hgn
          obtain ⟨_, bn, hbn, hbnr⟩ := goodChild_start _ hgn
          rw [hbn] at hcs
          injection hcs with hcs
          rw [hcs] at hbnr
          exact hbnr
    · intro hcan
      rw [hcan] at hu
      simp at hu
      subst hu
      exact ⟨rfl, fireStop_state _ _ _⟩

/-- A fixture: Sequence of the 1-tick child then the 3-tick child. -/
def seqAB : CAction := .seqA (freshCore 12) [quickAtom, slowAtom] 0

/-- The Sequence fixture, started. -/
def startedSeq : CAction := okOr seqAB seqAB.start

/-- Witness for C5 at the concrete two-child Sequence, one start step in. -/
theorem sequenceOrdering_witness :
    ∃ c cs i, startedSeq = .seqA c cs i ∧
      cs.length = ([quickAtom, slowAtom] : List CAction).length ∧
      SeqInv c.state cs i ∧
      (∀ (j k : Nat) (cj ck : CAction), j < k → cs[j]? = some cj →
        cs[k]? = some ck → cj.topState.isActive = true →
        ck.topState.isActive = true → False) ∧
      ((c.state = .running ∨ c.state = .paused) →
        (∀ (j : Nat) (cj : CAction), j < i → cs[j]? = some cj →
          cj.topState = .done) ∧
        (∀ (j : Nat) (cj : CAction), i < j → cs[j]? = some cj →
          cj.topState = .pending)) ∧
      (c.state = .done → ∀ (j : Nat) (cj : CAction), cs[j]? = some cj →
        cj.topState = .done) ∧
      (c.state = .cancelled → ∀ (j : Nat) (cj : CAction), i < j →
        cs[j]? = some cj → cj.topState = .pending) :=
  sequenceOrdering.1 (freshCore 12) [quickAtom, slowAtom] startedSeq rfl
    (by
      intro j cj hj
      match j with
      | 0 =>
          simp at hj
          rw [← hj]
          decide
      | 1 =>
          simp at hj
          rw [← hj]
          decide
      | j + 2 => simp at hj)
    (Relation.ReflTransGen.single (Step.start seqAB startedSeq rfl))

/-- Modelled from the spec (section 4.3): one entry of the binding table,
mapping a target identity and tag to the currently bound action. -/
structure BoundEntry where
  tid : Nat
  tag : String
  action : CAction

/-- The binding table of spec section 4.3. -/
abbrev BindTable := List BoundEntry

/-- Modelled from the spec (section 4.3): the default tag substituted for an
omitted tag, so that untagged actions on the same target still mutually
exclude each other. -/
def defaultTag : String := "default"

/-- The effective binding tag of an optional tag. -/
def tagKey : Option String → String
  | some g => g
  | none => defaultTag

/-- Whether a table entry carries the given key. -/
def keyMatches (e : BoundEntry) (t : Nat) (g : String) : Bool :=
  e.tid == t && e.tag == g

/-- Observable events of a bind call, in execution order. -/
inductive BEvent where
  | stopped (a : CAction) (r : StopReason)
  | started (a : CAction)

/-- Look up the occupant of a (target, tag) key. -/
def lookupB : BindTable → Nat → String → Option CAction
  | [], _, _ => none
  | e :: es, t, g =>
      if keyMatches e t g then some e.action else lookupB es t g

/-- Remove every entry with the given key. -/
def removeB : BindTable → Nat → String → BindTable
  | [], _, _ => []
  | e :: es, t, g =>
      if keyMatches e t g then removeB es t g else e :: removeB es t g

/-- Modelled from the spec (section 4.3): `bind(target, tag, action)`: the
omitted tag maps to the default tag; a present, non-terminal occupant of the
key is stopped first with reason REPLACED (routed through the same CANCELLED
path); then the new action is installed as the occupant and started.  The
returned event list records the execution order: the occupant's stop strictly
precedes the new action's start.  An action whose `start()` fails is not
installed. -/
def bindA (tb : BindTable) (target : Nat) (tag : Option String) (a : CAction) :
    BindTable × List BEvent :=
  let g := tagKey tag
  let stopEvents : List BEvent :=
    match lookupB tb target g with
    | some occ =>
        if occ.topState.isActive then [.stopped (occ.stop .replaced) .replaced]
        else []
    | none => []
  let tb1 := removeB tb target g
  match a.start with
  | .ok a' => (⟨target, g, a'⟩ :: tb1, stopEvents ++ [.started a'])
  | .error _ => (tb1, stopEvents)

/-- Modelled from the spec (section 4.3): `unbind(target, tag)` stops and
removes the occupant if present; no-op if absent. -/
def unbind (tb : BindTable) (target : Nat) (tag : Option String) : BindTable :=
  removeB tb target (tagKey tag)

/-- A binding-table operation. -/
inductive BOp where
  | bindOp (target : Nat) (tag : Option String) (a : CAction)
  | unbindOp (target : Nat) (tag : Option String)

/-- Apply one binding operation. -/
def applyBOp (tb : BindTable) : BOp → BindTable
  | .bindOp t g a => (bindA tb t g a).1
  | .unbindOp t g => unbind tb t g

/-- Run a sequence of binding operations from the empty table. -/
def runBOps (ops : List BOp) : BindTable := List.foldl applyBOp [] ops

/-- How many entries of the table carry the given key. -/
def keyCount (tb : BindTable) (t : Nat) (g : String) : Nat :=
  tb.countP (fun e => keyMatches e t g)

theorem keyCount_removeB_self (tb : BindTable) (t : Nat) (g : String) :
    keyCount (removeB tb t g) t g = 0 := by
  induction tb with
  | nil => rfl
  | cons e es ih =>
      rw [removeB]
      by_cases h : keyMatches e t g = true
      · rw [if_pos h]; exact ih
      · rw [if_neg h]
        simp only [keyCount, List.countP_cons] at ih ⊢
        simp [h, ih]

theorem keyCount_removeB_le (tb : BindTable) (t t' : Nat) (g g' : String) :
    keyCount (removeB tb t g) t' g' ≤ keyCount tb t' g' := by
  induction tb with
  | nil => exact Nat.le_refl 0
  | cons e es ih =>
      rw [removeB]
      by_cases h : keyMatches e t g = true
      · rw [if_pos h]
        simp only [keyCount, List.countP_cons] at ih ⊢
        exact Nat.le_trans ih (Nat.le_add_right _ _)
      · rw [if_neg h]
        simp only [keyCount, List.countP_cons] at ih ⊢
        exact Nat.add_le_add_right ih _

theorem applyBOp_keyCount (tb : BindTable) (op : BOp)
    (hi : ∀ (t : Nat) (g : String), keyCount tb t g ≤ 1) :
    ∀ (t : Nat) (g : String), keyCount (applyBOp tb op) t g ≤ 1 := by
  intro t g
  cases op with
  | unbindOp t0 g0 =>
      exact Nat.le_trans (keyCount_removeB_le tb t0 t (tagKey g0) g) (hi t g)
  | bindOp t0 g0 a =>
      simp only [applyBOp, bindA]
      match ha : a.start with
      | .error e =>
          dsimp only
          exact Nat.le_trans (keyCount_removeB_le tb t0 t (tagKey g0) g) (hi t g)
      | .ok a' =>
          dsimp only
          simp only [keyCount, List.countP_cons]
          by_cases hk : keyMatches ⟨t0, tagKey g0, a'⟩ t g = true
          · have hkey : t0 = t ∧ tagKey g0 = g := by
              rw [keyMatches] at hk
              simp at hk
              exact hk
            obtain ⟨ht, hg⟩ := hkey
            subst ht; subst hg
            have h0 := keyCount_removeB_self tb t0 (tagKey g0)
            simp only [keyCount] at h0
            simp [hk, h0]
          · have hle := keyCount_removeB_le tb t0 t (tagKey g0) g
            simp only [keyCount] at hle
            simp only [hk]
            simpa using Nat.le_trans hle (hi t g)

theorem foldl_keyCount (ops : List BOp) (tb : BindTable)
    (hi : ∀ (t : Nat) (g : String), keyCount tb t g ≤ 1) :
    ∀ (t : Nat) (g : String),
      keyCount (List.foldl applyBOp tb ops) t g ≤ 1 := by
  induction ops generalizing tb with
  | nil => exact hi
  | cons op ops ih =>
      rw [List.foldl_cons]
      exact ih (applyBOp tb op) (applyBOp_keyCount tb op hi)

/-- C1: single-writer binding: after any sequence of bind/unbind calls (an
omitted tag mapping to the default tag) the table holds at most one entry —
hence at most one non-terminal occupant — per (target, tag) key; and binding
onto a key whose occupant is still active stops that occupant with reason
REPLACED through the CANCELLED path (its state becomes CANCELLED, the reason
is recorded, on_stop fires once) strictly before the new action's start, as
the emitted event order shows. -/
theorem singleWriterBinding :
    (∀ (ops : List BOp) (t : Nat) (g : String),
      keyCount (runBOps ops) t g ≤ 1) ∧
    (∀ (ops : List BOp) (t : Nat) (g : String),
      (runBOps ops).countP
        (fun e => keyMatches e t g && !e.action.topState.isTerminal) ≤ 1) ∧
    (∀ (tb : BindTable) (t : Nat) (tag : Option String) (a occ : CAction),
      lookupB tb t (tagKey tag) = some occ → occ.topState.isActive = true →
      ∀ a', a.start = .ok a' →
        (bindA tb t tag a).2 =
          [BEvent.stopped (occ.stop .replaced) .replaced, BEvent.started a'] ∧
        (occ.stop .replaced).topState = .cancelled ∧
        (occ.core.onStopFired = false →
          (occ.stop .replaced).core.stopReason = some .replaced ∧
          (occ.stop .replaced).core.onStopCount = occ.core.onStopCount + 1)) := by
  refine ⟨?_, ?_, ?_⟩
  · intro ops t g
    exact foldl_keyCount ops [] (fun _ _ => Nat.le_refl 0 |>.trans (by omega)) t g
  · intro ops t g
    refine Nat.le_trans ?_ (foldl_keyCount ops []
      (fun _ _ => Nat.le_refl 0 |>.trans (by omega)) t g)
    rw [keyCount]
    exact List.countP_mono_left (fun e _ he => by
      rw [Bool.and_eq_true] at he
      exact he.1)
  · intro tb t tag a occ hocc hact a' ha
    have hact' : occ.core.state.isActive = true := hact
    refine ⟨?_, stop_topState_active occ .replaced hact', ?_⟩
    · rw [bindA]
      rw [hocc, ha]
      simp [hact]
    · intro hf
      rw [stop_core_of_active occ .replaced hact', Core.fireStop, hf]
      simp

/-- A fixture: a table binding target 1 under the default tag to a running
occupant. -/
def occupiedTable : BindTable := [⟨1, defaultTag, runningAtom⟩]

/-- Witness for C1's replacement clause: binding a fresh action over the
running occupant emits the occupant's REPLACED stop strictly before the new
action's start, and the occupant ends CANCELLED with reason REPLACED. -/
theorem singleWriterBinding_witness :
    (bindA occupiedTable 1 none quickAtom).2 =
      [BEvent.stopped (runningAtom.stop .replaced) .replaced,
       BEvent.started startedQuick] ∧
    (runningAtom.stop .replaced).topState = .cancelled ∧
    (runningAtom.stop .replaced).core.stopReason = some .replaced :=
  let h := singleWriterBinding.2.2 occupiedTable 1 none quickAtom runningAtom
    rfl rfl startedQuick rfl
  ⟨h.1, h.2.1, (h.2.2 rfl).1⟩
